import Mathlib

/-!
Verification of the ItemRoutingSystem route-optimization engine (src/app.py).

This file shallowly embeds the engine's data model and algorithms:
grid positions, the access graph (`build_graph_for_order`), the matrix
reduction used by branch-and-bound (`matrix_reduction`), the three tour
solvers (`branch_and_bound`, `nearest_neighbor`, `localized_min_path`),
the grid pathfinder (`dijkstra`) and the waypoint collapser
(`collapse_directions`), and proves or refutes the specified properties.

Python dictionaries are modelled as insertion-ordered association lists,
Python `None`/`float('inf')` cost values by an explicit `CostV` type, and
exceptions (`KeyError`, `TypeError`, `NameError`, `IndexError`) by an
`Except` result.  Loops without a structural termination argument take a
fuel parameter; the asynchronous SIGALRM deadline is not modelled (claims
below are about deadline-free runs, except for the timeout-handler model
used for claim 7).
-/

namespace ItemRouting

/-- A grid position `(x, y)`, as the Python tuples of ints. -/
abbrev Pos := Int × Int

/-- Logical graph nodes: the strings `'Start'`, `'End'`, or a product id. -/
inductive NodeId where
  | Start : NodeId
  | End : NodeId
  | item : Nat → NodeId
deriving DecidableEq, Repr

/-- Cardinal approach directions `"N" | "S" | "E" | "W"`. -/
inductive Dir where
  | N : Dir
  | S : Dir
  | E : Dir
  | W : Dir
deriving DecidableEq, Repr

/-- A Python cost value: an integer, `float('inf')` (INFINITY), or `None`. -/
inductive CostV where
  | num : Int → CostV
  | infty : CostV
  | null : CostV
deriving DecidableEq, Repr

namespace CostV

/-- Python `a < b` on cost values; `None` is never compared by the code
(guards precede every comparison), so its comparisons never occur. -/
def lt : CostV → CostV → Bool
  | num a, num b => a < b
  | num _, infty => true
  | infty, _ => false
  | _, _ => false

/-- Whether this is a finite (integer) cost. -/
def isNum : CostV → Bool
  | num _ => true
  | _ => false

end CostV

/-! ### `collapse_directions` (src/app.py lines 1549-1592)

The loop state carries the previously seen position (`prev_x`, `prev_y`),
the previous committed direction `prev_dir` and the running `direction`
variable (which retains its old value when the position does not change). -/

/-- The four direction tags `'x+' | 'x-' | 'y+' | 'y-'` computed by
`collapse_directions`. -/
inductive MDir where
  | xp : MDir
  | xm : MDir
  | yp : MDir
  | ym : MDir
deriving DecidableEq, Repr

/-- The direction of a step from `p` to `q` exactly as the code computes it
when the positions differ on some axis; `none` when `p = q` (in which case
the code leaves its `direction` variable unchanged). -/
def dpure (p q : Pos) : Option MDir :=
  if p.1 ≠ q.1 then some (if p.1 > q.1 then MDir.xp else MDir.xm)
  else if p.2 ≠ q.2 then some (if p.2 > q.2 then MDir.yp else MDir.ym)
  else none

/-- Loop state of `collapse_directions`. -/
structure CDState where
  result : List Pos
  prevx : Int
  prevy : Int
  prevDir : Option MDir
  dir : Option MDir
deriving Repr

/-- The updated `direction` variable: recomputed when the position moved,
kept otherwise. -/
def cdDir (s : CDState) (q : Pos) : Option MDir :=
  match dpure (s.prevx, s.prevy) q with
  | some d' => some d'
  | none => s.dir

/-- One iteration of the `for position in positions` loop, for a
non-first position `q` (the first position is handled by the caller). -/
def cdStep (skip_duplicate : Bool) (s : CDState) (q : Pos) : CDState :=
  let d : Option MDir := cdDir s q
  if skip_duplicate ∧ s.prevDir = none then
    { s with prevDir := d, dir := d, prevx := q.1, prevy := q.2 }
  else if s.prevDir ≠ d then
    { result := s.result ++ [(s.prevx, s.prevy)],
      prevx := q.1, prevy := q.2, prevDir := d, dir := d }
  else
    { s with prevx := q.1, prevy := q.2, dir := d }

/-- The remainder of the loop. -/
def cdLoop (skip_duplicate : Bool) (s : CDState) : List Pos → CDState
  | [] => s
  | q :: rest => cdLoop skip_duplicate (cdStep skip_duplicate s q) rest

/-- `collapse_directions(positions, skip_duplicate=True)`.  Returns `none`
for the empty list, on which the final `positions[-1]` raises IndexError. -/
def collapse_directions (positions : List Pos) (skip_duplicate : Bool := true) :
    Option (List Pos) :=
  match positions with
  | [] => none
  | p :: rest =>
    let s := cdLoop skip_duplicate ⟨[p], p.1, p.2, none, none⟩ rest
    some (s.result ++ [(p :: rest).getLast (List.cons_ne_nil _ _)])

/-- `chainD a din l dout`: walking along `l` starting from `a`, every step has
a pure direction (consecutive positions differ) that differs from the
direction of the incoming step (`din`, `none` before the first step), and
`dout` is the direction of the final step (`din` when `l = []`).  This is the
shape of the waypoint lists produced by `collapse_directions`. -/
def chainD : Pos → Option MDir → List Pos → Option MDir → Prop
  | _, din, [], dout => din = dout
  | a, din, b :: rest, dout =>
    match dpure a b with
    | some d2 => din ≠ some d2 ∧ chainD b (some d2) rest dout
    | none => False

/-- The invariant of the `collapse_directions` loop, for first input
position `p0`: the committed direction always equals the running
direction; as long as it is `none` nothing has moved; once it is
`some d`, the accumulated result together with the current position form
an alternating pure chain whose final direction is `d`. -/
def cdINV (p0 : Pos) (s : CDState) : Prop :=
  s.prevDir = s.dir ∧
  ((s.dir = none ∧ s.result = [p0] ∧ (s.prevx, s.prevy) = p0) ∨
   (∃ d ms, s.dir = some d ∧ s.result = p0 :: ms ∧
      chainD p0 none (ms ++ [(s.prevx, s.prevy)]) (some d)))

/-! ### The access graph ("matrix")

A Python dict is modelled as an insertion-ordered association list; dict
iteration order is the list order.  An edge group
`graph[(start, end, start_dir)]` maps destination approach directions to
entries `{location, cost, path}` (src/app.py `build_graph_for_order`). -/

/-- The value stored per destination direction of an edge. -/
structure Entry where
  location : Pos
  cost : CostV
  path : List Pos
deriving DecidableEq, Repr

/-- A graph key `(start_node, end_node, start_direction)`. -/
abbrev GKey := NodeId × NodeId × Option Dir

/-- The per-edge dict of destination direction to entry. -/
abbrev DirMap := List (Option Dir × Entry)

/-- The access graph: dict keyed by `GKey`. -/
abbrev Graph := List (GKey × DirMap)

instance dirMapDecEq : DecidableEq DirMap := inferInstance

instance graphEntryDecEq : DecidableEq (GKey × DirMap) := inferInstance

instance graphDecEq : DecidableEq Graph := inferInstance

/-- Dict lookup (`d[k]`, returning `none` for a KeyError). -/
def alookup {α β : Type} [DecidableEq α] (k : α) : List (α × β) → Option β
  | [] => none
  | (k', v) :: rest => if k' = k then some v else alookup k rest

/-! ### `matrix_reduction` (src/app.py lines 860-928) -/

/-- `INFINITY if cost is None else cost`. -/
def CostV.orInf : CostV → CostV
  | .null => .infty
  | c => c

/-- Python `min` on cost values (used only on finite/INFINITY values). -/
def CostV.minv (a b : CostV) : CostV := if CostV.lt b a then b else a

/-- The minimum cost over the row group of `key` (entries whose source node
equals `key`'s source node), treating `None` as INFINITY. -/
def rowMin (key : GKey) (tm : Graph) : CostV :=
  tm.foldl
    (fun acc kv =>
      if key.1 = kv.1.1 then
        kv.2.foldl (fun a de => CostV.minv a de.2.cost.orInf) acc
      else acc)
    .infty

/-- The minimum cost over the `End`-column group as the code scans it: the
entries whose destination is `End` and which are **not** in `key`'s row
group (the `elif` excludes them). -/
def colMin (key : GKey) (tm : Graph) : CostV :=
  tm.foldl
    (fun acc kv =>
      if ¬ key.1 = kv.1.1 ∧ kv.1.2.1 = NodeId.End then
        kv.2.foldl (fun a de => CostV.minv a de.2.cost.orInf) acc
      else acc)
    .infty

/-- The subtraction applied to each entry of a reduced group: finite costs
are lowered by `r`, `None` and INFINITY become INFINITY. -/
def subCost (r : Int) : CostV → CostV
  | .num n => .num (n - r)
  | _ => .infty

/-- One pass of the outer `for key in temp_matrix.keys()` loop: compute the
row minimum and the `End`-column minimum (INFINITY falls back to 0),
subtract them from their groups, and report the amount subtracted. -/
def reduction_pass (tm : Graph) (key : GKey) : Int × Graph :=
  let row_cost : Int := match rowMin key tm with | .num n => n | _ => 0
  let zero_col_cost : Int := match colMin key tm with | .num n => n | _ => 0
  let tm' := tm.map (fun kv =>
    if key.1 = kv.1.1 then
      (kv.1, kv.2.map (fun de => (de.1, { de.2 with cost := subCost row_cost de.2.cost })))
    else if kv.1.2.1 = NodeId.End then
      (kv.1, kv.2.map (fun de => (de.1, { de.2 with cost := subCost zero_col_cost de.2.cost })))
    else kv)
  (row_cost + zero_col_cost, tm')

/-- Marking a committed edge: every entry whose source node matches the
committed source, or whose destination node matches the committed
destination, gets cost INFINITY (two successive `if`s in the source, both
overwriting with INFINITY, hence one disjunction here). -/
def mark_committed (matrix : Graph) : Option GKey → Graph
  | none => matrix
  | some src =>
    matrix.map (fun kv =>
      if src.1 = kv.1.1 ∨ src.2.1 = kv.1.2.1 then
        (kv.1, kv.2.map (fun de => (de.1, { de.2 with cost := CostV.infty })))
      else kv)

/-- `matrix_reduction(matrix, source, dest)`; the `dest` parameter is
accepted and unused exactly as in the source.  Returns
`(reduction_cost, reduced_matrix)`. -/
def matrix_reduction (matrix : Graph) (source : Option GKey := none)
    (dest : Option Dir := none) : Int × Graph :=
  let t0 := mark_committed matrix source
  (t0.map Prod.fst).foldl
    (fun acc key =>
      let p := reduction_pass acc.2 key
      (acc.1 + p.1, p.2))
    (0, t0)

/-- The list of per-pass subtraction amounts performed by the reduction, in
pass order (reference definition for the returned-cost bookkeeping). -/
def reduction_amounts (matrix : Graph) (source : Option GKey := none) : List Int :=
  let t0 := mark_committed matrix source
  ((t0.map Prod.fst).foldl
    (fun (acc : List Int × Graph) key =>
      let p := reduction_pass acc.2 key
      (acc.1 ++ [p.1], p.2))
    ([], t0)).1

/-- The cost of threading a tour (a list of `(node, direction)` choices)
through graph `g`: the sum of the looked-up edge costs of consecutive
pairs; `none` when an edge is absent or its cost is not a finite integer
(such a tour is not completable in `g`). -/
def tourCost (g : Graph) : List (NodeId × Option Dir) → Option Int
  | (n1, d1) :: (n2, d2) :: rest => do
    let dm ← alookup (n1, n2, d1) g
    let e ← alookup d2 dm
    match e.cost with
    | .num c => do
      let crest ← tourCost g ((n2, d2) :: rest)
      pure (c + crest)
    | _ => none
  | _ => some 0

/-! ### Branch-and-bound frontier extraction (src/app.py lines 990-1000) -/

/-- A frontier entry `(source, source_direction, cost, matrix, path)` of
`branch_and_bound`. -/
structure SState where
  source : NodeId
  sdir : Option Dir
  cost : CostV
  matrix : Graph
  path : List (NodeId × Option Dir)
deriving DecidableEq, Repr

/-- The "Get lowest cost node" index computation at the top of the main
loop: `index = 0; if len(queue) > 1: lowest_cost_node = INFINITY;
for i, (..., cost, ...) in enumerate(queue): if cost < lowest_cost_node:
index = i`.  (`lowest_cost_node` is never reassigned inside the loop.) -/
def select_index (queue : List SState) : Nat :=
  if queue.length > 1 then
    queue.enum.foldl (fun acc is => if CostV.lt is.2.cost .infty then is.1 else acc) 0
  else 0

/-- Reference description of what the extraction computes: the index of the
last queue entry with a finite cost, `0` when no entry has one. -/
def lastFiniteIdx (queue : List SState) : Nat :=
  match (queue.enum.filter (fun is => is.2.cost.isNum)).getLast? with
  | some (i, _) => i
  | none => 0

/-! ### Concrete example data -/

/-- An entry with the given finite cost (locations and stored paths do not
participate in reduction or solving). -/
def e0 (c : Int) : Entry := ⟨(0, 0), .num c, []⟩

/-- Example item node `A`. -/
def nA : NodeId := .item 1

/-- Example item node `B`. -/
def nB : NodeId := .item 2

/-- Example item node `C`. -/
def nC : NodeId := .item 3

/-- A small access graph over `Start, A, B, End` in builder key order, with
the synthetic zero-cost `(End, Start, None)` edge first. -/
def G2 : Graph :=
  [ ((NodeId.End, NodeId.Start, none), [(none, e0 0)]),
    ((NodeId.Start, nA, none), [(some .N, e0 2)]),
    ((NodeId.Start, nB, none), [(some .N, e0 3)]),
    ((nA, nB, some .N), [(some .N, e0 1)]),
    ((nA, NodeId.End, some .N), [(none, e0 5)]),
    ((nB, nA, some .N), [(some .N, e0 1)]),
    ((nB, NodeId.End, some .N), [(none, e0 7)]) ]

/-- The tour `Start → A → End → Start` (directions as stored in `G2`),
completable both in `G2` and in its reduction. -/
def tour0 : List (NodeId × Option Dir) :=
  [(NodeId.Start, none), (nA, some .N), (NodeId.End, none), (NodeId.Start, none)]

/-- A two-entry frontier: the seeded start state (cost = the initial
reduction cost here taken as 0) and one expanded child of cost 5. -/
def qex : List SState :=
  [⟨NodeId.Start, none, .num 0, G2, [(NodeId.Start, none)]⟩,
   ⟨nA, some .N, .num 5, G2, [(NodeId.Start, none), (nA, some .N)]⟩]

/-! ### Python exceptions and effectful dict access -/

/-- The Python exceptions the embedded code can raise. -/
inductive PyErr where
  | keyError : PyErr
  | typeError : PyErr
  | indexError : PyErr
  | nameError : PyErr
  | outOfFuel : PyErr
deriving DecidableEq, Repr

instance exceptDecEq {ε α : Type} [DecidableEq ε] [DecidableEq α] :
    DecidableEq (Except ε α)
  | .ok a, .ok b => decidable_of_iff (a = b) (by simp)
  | .error a, .error b => decidable_of_iff (a = b) (by simp)
  | .ok _, .error _ => isFalse (by simp)
  | .error _, .ok _ => isFalse (by simp)

/-- `d[k]`: dict subscription, raising KeyError for a missing key. -/
def dlook {α β : Type} [DecidableEq α] (k : α) (d : List (α × β)) : Except PyErr β :=
  match alookup k d with
  | some v => .ok v
  | none => .error .keyError

/-- `list.insert(index, x)` with Python's index semantics: negative indices
count from the end (clamped at 0), overlarge indices append. -/
def pyInsert {α : Type} (l : List α) (idx : Int) (x : α) : List α :=
  let n : Int := l.length
  let pos : Nat := if idx < 0 then (max (n + idx) 0).toNat else (min idx n).toNat
  l.take pos ++ x :: l.drop pos

/-! ### `localized_min_path` (src/app.py lines 1093-1201) -/

/-- The scan `for direction, values in graph[('Start', pid, None)].items()`
computing a node's minimum-cost edge cost from Start: `None` breaks out of
the loop, smaller finite costs update the running minimum. -/
def minDirCostGo : DirMap → CostV → CostV
  | [], acc => acc
  | de :: rest, acc =>
    match de.2.cost with
    | .null => acc
    | c => minDirCostGo rest (if CostV.lt c acc then c else acc)

/-- A node's minimum edge cost over the directions of its
`('Start', node, None)` group, starting from `float('inf')`. -/
def minDirCost (dm : DirMap) : CostV := minDirCostGo dm .infty

/-- The index-search loop of the sorted-order phase: the first position `i`
(counted from `k`) whose node's minimum cost strictly exceeds `nmc`;
`-1` when none does. -/
def lmpFindIdx (g : Graph) (nmc : CostV) : List NodeId → Nat → Except PyErr Int
  | [], _ => .ok (-1)
  | cn :: rest, i => do
    let dm ← dlook (NodeId.Start, cn, (none : Option Dir)) g
    let cmc := minDirCost dm
    if CostV.lt nmc cmc then pure (i : Int) else lmpFindIdx g nmc rest (i + 1)

/-- The sorted-order accumulation loop: skip `Start`, break at `End`,
append to an empty list, otherwise `insert` at the found index (`-1`,
i.e. before the last element, when no strictly-more-expensive node
exists). -/
def lmpSortGo (g : Graph) : List NodeId → List NodeId → Except PyErr (List NodeId)
  | [], so => .ok so
  | pid :: rest, so =>
    match pid with
    | .Start => lmpSortGo g rest so
    | .End => .ok so
    | _ => do
      let dm ← dlook (NodeId.Start, pid, (none : Option Dir)) g
      let nmc := minDirCost dm
      if so.length = 0 then
        lmpSortGo g rest (so ++ [pid])
      else do
        let idx ← lmpFindIdx g nmc so 0
        lmpSortGo g rest (pyInsert so idx pid)

/-- The node visiting order `localized_min_path` threads through:
the insertion-sorted items bracketed by `Start` and `End`. -/
def lmp_sorted_order (g : Graph) (order : List NodeId) : Except PyErr (List NodeId) := do
  let so ← lmpSortGo g order []
  pure (NodeId.Start :: (so ++ [NodeId.End]))

/-- The access-point scan of the threading phase: `None` cost breaks,
smaller costs update `(min_cost, access_direction, shortest_path)`. -/
def lmpScanGo (pid : NodeId) : DirMap → CostV → Option Dir →
    List (NodeId × Option Dir) → CostV × Option Dir × List (NodeId × Option Dir)
  | [], mc, ad, sp => (mc, ad, sp)
  | de :: rest, mc, ad, sp =>
    match de.2.cost with
    | .null => (mc, ad, sp)
    | c =>
      if CostV.lt c mc then lmpScanGo pid rest c de.1 [(pid, de.1)]
      else lmpScanGo pid rest mc ad sp

/-- The threading loop of `localized_min_path`: `pre_node` starts as Python
`None` (no graph key has a `None` source node, so a lookup through it would
raise KeyError). -/
def lmpThread (g : Graph) : List NodeId → Option NodeId → Option Dir → Int →
    List (NodeId × Option Dir) → Except PyErr (Int × List (NodeId × Option Dir))
  | [], _, _, tc, path => .ok (tc, path)
  | pid :: rest, pre, ad, tc, path =>
    match pid with
    | .Start => lmpThread g rest (some NodeId.Start) none tc (path ++ [(NodeId.Start, none)])
    | _ => do
      match pre with
      | none => Except.error PyErr.keyError
      | some p => do
        let dm ← dlook (p, pid, ad) g
        let r := lmpScanGo pid dm .infty ad []
        let tc' := match r.1 with | .num n => tc + n | _ => tc
        lmpThread g rest (some pid) r.2.1 tc' (path ++ r.2.2)

/-- `localized_min_path(graph, order)` (no deadline): returns
`(total_cost, path)` or the Python exception the call raises. -/
def localized_min_path (g : Graph) (order : List NodeId) :
    Except PyErr (Int × List (NodeId × Option Dir)) := do
  let so ← lmp_sorted_order g order
  lmpThread g so none none 0 []

/-! ### Reference definitions for the sorted-order phase (claim 8) -/

/-- A node's sort key: the minimum-cost edge cost of its
`('Start', node, None)` group. -/
def keyOf (g : Graph) (y : NodeId) : CostV :=
  minDirCost ((alookup (NodeId.Start, y, (none : Option Dir)) g).getD [])

/-- Every listed node has a `('Start', node, None)` group in `g`. -/
def hasKeys (g : Graph) (l : List NodeId) : Prop :=
  ∀ y ∈ l, (alookup (NodeId.Start, y, (none : Option Dir)) g).isSome = true

/-- The position (counted from `k`) of the first element whose key strictly
exceeds `x`'s key, `none` if there is none. -/
def findGreaterIdx (key : NodeId → CostV) (x : NodeId) : List NodeId → Nat → Option Nat
  | [], _ => none
  | y :: rest, i =>
    if CostV.lt (key x) (key y) then some i else findGreaterIdx key x rest (i + 1)

/-- Reference description of one sorted-phase insertion: insert before the
first element with strictly greater key; otherwise (and in particular when
the new key is greater than or equal to all present) insert just before the
*last* element — Python's `insert(-1, ...)` — not at the end. -/
def lmpInsertSpec (key : NodeId → CostV) (x : NodeId) (l : List NodeId) : List NodeId :=
  match findGreaterIdx key x l 0 with
  | some i => l.take i ++ x :: l.drop i
  | none => l.take (l.length - 1) ++ x :: l.drop (l.length - 1)

/-- The items the sorted-order loop actually processes: those before the
first `End`, with `Start` skipped. -/
def lmpItems (order : List NodeId) : List NodeId :=
  (order.takeWhile (fun n => n ≠ NodeId.End)).filter (fun n => n ≠ NodeId.Start)

/-- Reference sorted order: fold of `lmpInsertSpec`, bracketed by `Start`
and `End`. -/
def lmp_sorted_order_spec (g : Graph) (order : List NodeId) : List NodeId :=
  NodeId.Start ::
    ((lmpItems order).foldl (fun so pid => lmpInsertSpec (keyOf g) pid so) [] ++ [NodeId.End])

/-- A stable ascending insertion (what the specification claims the phase
does): insert before the first element with strictly greater key, else at
the end. -/
def stableInsertAsc (key : NodeId → CostV) (x : NodeId) : List NodeId → List NodeId
  | [] => [x]
  | y :: rest =>
    if CostV.lt (key x) (key y) then x :: y :: rest else y :: stableInsertAsc key x rest

/-- The stable ascending insertion sort by key. -/
def stableSortAsc (key : NodeId → CostV) (l : List NodeId) : List NodeId :=
  l.foldl (fun acc x => stableInsertAsc key x acc) []

/-- A graph giving items `A`, `B`, `C` minimum costs 1, 2, 3 from Start. -/
def G3 : Graph :=
  [ ((NodeId.End, NodeId.Start, none), [(none, e0 0)]),
    ((NodeId.Start, nA, none), [(some .N, e0 1)]),
    ((NodeId.Start, nB, none), [(some .N, e0 2)]),
    ((NodeId.Start, nC, none), [(some .N, e0 3)]) ]

/-- The order `[Start, A, B, C, End]`. -/
def orderABC : List NodeId := [NodeId.Start, nA, nB, nC, NodeId.End]

/-! ### `nearest_neighbor` (src/app.py lines 1289-1383)

The walk queue may contain Python `None` (when no candidate at all is
found, `queue.append(visited_next_node)` appends `None`), hence queue
elements are `Option (NodeId × Option Dir)`. -/

/-- Python `a + b` on cost values: adding `None` raises TypeError,
INFINITY absorbs. -/
def pyAdd : CostV → CostV → Except PyErr CostV
  | .num a, .num b => .ok (.num (a + b))
  | .null, _ => .error .typeError
  | _, .null => .error .typeError
  | _, _ => .ok .infty

/-- `list.remove(x)`: drop the first occurrence. -/
def pyRemove {α : Type} [DecidableEq α] (x : α) : List α → List α
  | [] => []
  | y :: rest => if y = x then rest else y :: pyRemove x rest

/-- Python `a <= b` on cost values (used only on finite/INFINITY values). -/
def CostV.le : CostV → CostV → Bool
  | .num x, .num y => x ≤ y
  | .num _, .infty => true
  | .infty, .infty => true
  | .infty, .num _ => false
  | _, _ => false

/-- The direction scan of one candidate edge group: `None` costs are
skipped (`continue`), smaller costs update the running
`(min_cost, next_node)`. -/
def nnDirScan (dest : NodeId) : DirMap → CostV → Option (NodeId × Option Dir) →
    CostV × Option (NodeId × Option Dir)
  | [], mc, nnode => (mc, nnode)
  | de :: rest, mc, nnode =>
    match de.2.cost with
    | .null => nnDirScan dest rest mc nnode
    | c =>
      if CostV.lt c mc then nnDirScan dest rest c (some (dest, de.1))
      else nnDirScan dest rest mc nnode

/-- The scan over `graph.items()` accumulating the cheapest unvisited
candidate and the cheapest already-visited candidate from the popped
`(node, direction)`.  Subscripting a `None` popped node raises TypeError
(only when the graph is nonempty, as in the source the expression sits
inside the loop body). -/
def nnScan (poppedOpt : Option (NodeId × Option Dir)) (item_list : List NodeId) :
    Graph → CostV → Option (NodeId × Option Dir) → CostV → Option (NodeId × Option Dir) →
    Except PyErr ((CostV × Option (NodeId × Option Dir)) ×
      (CostV × Option (NodeId × Option Dir)))
  | [], mc, nnode, vmc, vnn => .ok ((mc, nnode), (vmc, vnn))
  | kv :: rest, mc, nnode, vmc, vnn =>
    match poppedOpt with
    | none => .error .typeError
    | some popped =>
      if popped.1 = kv.1.1 ∧ popped.2 = kv.1.2.2 ∧ kv.1.2.1 ∈ item_list then
        let r := nnDirScan kv.1.2.1 kv.2 mc nnode
        nnScan poppedOpt item_list rest r.1 r.2 vmc vnn
      else if popped.1 = kv.1.1 ∧ popped.2 = kv.1.2.2 then
        let r := nnDirScan kv.1.2.1 kv.2 vmc vnn
        nnScan poppedOpt item_list rest mc nnode r.1 r.2
      else nnScan poppedOpt item_list rest mc nnode vmc vnn

/-- The `while item_list:` walk loop of one starting key, with fuel (the
fallback-to-visited branch never shrinks `item_list`, so without the
SIGALRM deadline the source loop need not terminate). -/
def nnWalkGo (g : Graph) : Nat → List NodeId → List (Option (NodeId × Option Dir)) →
    CostV → Bool → Except PyErr (CostV × List (Option (NodeId × Option Dir)))
  | 0, _, _, _, _ => .error .outOfFuel
  | fuel + 1, item_list, queue, total_cost, first_time =>
    match item_list with
    | [] => .ok (total_cost, queue)
    | _ :: _ => do
      match queue.getLast? with
      | none => .error .indexError
      | some poppedOpt => do
        let queue1 := if first_time then queue.dropLast else queue
        let r ← nnScan poppedOpt item_list g .infty none .infty none
        match r.1.2 with
        | some nxt => do
          let tc ← pyAdd total_cost r.1.1
          let il2 := if nxt.1 ∈ item_list then pyRemove nxt.1 item_list else item_list
          nnWalkGo g fuel il2 (queue1 ++ [some nxt]) tc false
        | none => do
          let tc ← pyAdd total_cost r.2.1
          nnWalkGo g fuel item_list (queue1 ++ [r.2.2]) tc false

/-- The loop-closing cost: evaluation order follows the source
(`beginning_node[0]` in the branch condition first, then `last_node`
subscripts, then the dict lookups). -/
def nnClosure (g : Graph) (total_cost : CostV)
    (queue : List (Option (NodeId × Option Dir))) : Except PyErr CostV := do
  match queue.getLast? with
  | none => .error .indexError
  | some lastOpt =>
    match queue.head? with
    | none => .error .indexError
    | some begOpt =>
      match begOpt with
      | none => .error .typeError
      | some beg =>
        if beg.1 ≠ NodeId.Start then do
          match lastOpt with
          | none => .error .typeError
          | some lst => do
            let dm ← dlook (lst.1, beg.1, lst.2) g
            let e ← dlook beg.2 dm
            pyAdd total_cost e.cost
        else
          match lastOpt with
          | none => .error .typeError
          | some lst =>
            if lst.1 ≠ NodeId.End then do
              let dm ← dlook (lst.1, NodeId.End, lst.2) g
              let e ← dlook beg.2 dm
              pyAdd total_cost e.cost
            else
              .ok .infty

/-- One complete walk for one starting key. -/
def nnWalk (g : Graph) (order : List NodeId) (key : GKey) (fuel : Nat) :
    Except PyErr (CostV × List (Option (NodeId × Option Dir))) := do
  let r ← nnWalkGo g fuel order [some (key.1, key.2.2)] (.num 0) true
  let tc ← nnClosure g r.1 r.2
  pure (tc, r.2)

/-- The outer `for key in graph.keys():` loop keeping the cheapest
completed walk. -/
def nnOuter (g : Graph) (order : List NodeId) (fuel : Nat) :
    List GKey → CostV → Option (List (Option (NodeId × Option Dir))) →
    Except PyErr (CostV × Option (List (Option (NodeId × Option Dir))))
  | [], fc, fp => .ok (fc, fp)
  | key :: rest, fc, fp => do
    let w ← nnWalk g order key fuel
    if CostV.lt w.1 fc then nnOuter g order fuel rest w.1 (some w.2)
    else nnOuter g order fuel rest fc fp

/-- `nearest_neighbor(graph, order)` (no deadline): returns
`(final_cost, final_path)`. -/
def nearest_neighbor (g : Graph) (order : List NodeId) (fuel : Nat) :
    Except PyErr (CostV × Option (List (Option (NodeId × Option Dir)))) :=
  nnOuter g order fuel (g.map Prod.fst) .infty none

/-! ### The `nearest_neighbor` timeout handler (claim 7)

On SIGALRM the handler runs `if path: return final_cost, final_path
else: return None, order`.  The name `path` must resolve through the
function's local scope and then the module globals (it is not a Python
builtin); both name sets are transcribed below from src/app.py. -/

/-- The names assigned anywhere in `nearest_neighbor`'s body — its local
scope (src/app.py lines 1289-1383). -/
def nearest_neighbor_local_names : List String :=
  ["final_path", "final_cost", "key", "first_time_thru", "queue", "item_list",
   "first_node", "total_cost", "popped_node", "min_cost", "visited_min_cost",
   "next_node", "visited_next_node", "curr_node", "dest_node", "curr_dir",
   "values", "direc", "last_node", "beginning_node", "exc"]

/-- The module-level names of src/app.py: its imports (including the
`from constants import *` names), its `def`/`class` statements. -/
def app_module_names : List String :=
  ["Menu", "PriorityQueue", "deepcopy", "heapq", "itertools", "ceil", "os",
   "platform", "random", "signal", "sys", "time", "INFINITY", "MenuType",
   "AlgoMethod", "GenerateMode", "PrintType", "AccessType", "Enum",
   "timeout_handler", "ItemRoutingSystem", "main"]

/-- What the handler could return if it ran to completion. -/
inductive NNTimeoutReturn where
  | bestWalk : CostV → Option (List (Option (NodeId × Option Dir))) → NNTimeoutReturn
  | fallback : List NodeId → NNTimeoutReturn
deriving DecidableEq, Repr

/-- The timeout handler: look up `path` in the scope `bound` (with `truthy`
giving the truth value of bound names); an unbound name raises NameError
before either return statement runs. -/
def nn_timeout_handler (bound : List String) (truthy : String → Bool)
    (final_cost : CostV) (final_path : Option (List (Option (NodeId × Option Dir))))
    (order : List NodeId) : Except PyErr NNTimeoutReturn :=
  if "path" ∈ bound then
    (if truthy "path" then .ok (.bestWalk final_cost final_path)
     else .ok (.fallback order))
  else .error .nameError

/-! ### `branch_and_bound` (src/app.py lines 931-1091) -/

/-- The branch-and-bound access-type setting (`self.bnb_access_type`;
the application default is `MULTI_ACCESS`). -/
inductive BnbAccess where
  | single : BnbAccess
  | multi : BnbAccess
deriving DecidableEq, Repr

/-- The memo of reduced matrices, keyed by `(str(src_path), dest)`
(`str` is injective on these values, so the path itself serves as key). -/
abbrev Cache := List ((List (NodeId × Option Dir) × NodeId) × (Int × Graph))

/-- The body of `binary_search`, recursing structurally on the size
`(high - low + 1).toNat` of the current range (each recursive call
shrinks the range by at least one, so the counter never hits 0 while
`high ≥ low`; `/` here is floor division, as Python's `//`). -/
def bsGo (arr : List SState) (target : CostV) : Nat → Int → Int → Int
  | 0, _, _ => -1
  | n + 1, low, high =>
    if high ≥ low then
      let mid := (high + low) / 2
      match arr.get? mid.toNat with
      | none => -1
      | some s =>
        if s.cost = target then mid
        else if CostV.lt target s.cost then bsGo arr target n low (mid - 1)
        else bsGo arr target n (mid + 1) high
    else -1

/-- The recursive exact-match `binary_search(arr, low, high, target)` over
the frontier cost field; `-1` when the exact cost is not found. -/
def binary_search (arr : List SState) (low high : Int) (target : CostV) : Int :=
  bsGo arr target (high - low + 1).toNat low high

/-- Cache consultation for one child reduction: on a miss the reduction of
the popped state's matrix committing `(start, dest, src_dir)` is computed
and memoised. -/
def bnbCacheGet (s : SState) (k : GKey) (d : Option Dir) (cached : Cache) :
    Int × Graph × Cache :=
  match alookup (s.path, k.2.1) cached with
  | some rt => (rt.1, rt.2, cached)
  | none =>
    let rt := matrix_reduction s.matrix (some k) d
    (rt.1, rt.2, cached ++ [((s.path, k.2.1), rt)])

/-- The inner direction loop of a MULTI_ACCESS expansion: each valid
direction yields a child state inserted at the binary-search position when
its bound does not exceed the best known cost. -/
def bnbDirsMulti (s : SState) (k : GKey) (min_cost : CostV) :
    DirMap → List SState → Cache → Except PyErr (List SState × Cache)
  | [], queue, cached => .ok (queue, cached)
  | de :: rest, queue, cached =>
    match de.2.cost with
    | .null => bnbDirsMulti s k min_cost rest queue cached
    | .infty => bnbDirsMulti s k min_cost rest queue cached
    | .num ec => do
      let rc := bnbCacheGet s k de.1 cached
      let t1 ← pyAdd s.cost (.num ec)
      let total ← pyAdd t1 (.num rc.1)
      let node : SState := ⟨k.2.1, de.1, total, rc.2.1, s.path ++ [(k.2.1, de.1)]⟩
      if CostV.le total min_cost then
        let idx := binary_search queue 0 ((queue.length : Int) - 1) total
        bnbDirsMulti s k min_cost rest (pyInsert queue idx node) rc.2.2
      else bnbDirsMulti s k min_cost rest queue rc.2.2

/-- The inner direction loop of a SINGLE_ACCESS expansion: it tracks the
chosen (minimum `total_reduction`) candidate and, separately, the raw
`total_reduction` value of the last processed direction (which is the
value the source later inserts, not the chosen one). -/
def bnbDirsSingle (s : SState) (k : GKey) :
    DirMap → Cache → Option (Option Dir × Graph × List (NodeId × Option Dir)) →
    CostV → Option CostV →
    Except PyErr (Cache × Option (Option Dir × Graph × List (NodeId × Option Dir)) ×
      Option CostV)
  | [], cached, chosen, _, lastTotal => .ok (cached, chosen, lastTotal)
  | de :: rest, cached, chosen, highest, lastTotal =>
    match de.2.cost with
    | .null => bnbDirsSingle s k rest cached chosen highest lastTotal
    | .infty => bnbDirsSingle s k rest cached chosen highest lastTotal
    | .num ec => do
      let rc := bnbCacheGet s k de.1 cached
      let t1 ← pyAdd s.cost (.num ec)
      let total ← pyAdd t1 (.num rc.1)
      if chosen.isNone || CostV.lt total highest then
        bnbDirsSingle s k rest rc.2.2
          (some (de.1, rc.2.1, s.path ++ [(k.2.1, de.1)])) total (some total)
      else bnbDirsSingle s k rest rc.2.2 chosen highest (some total)

/-- The expansion loop over `matrix.items()` for the popped state `s`:
relevant groups are those matching `(source, source_direction)` whose
destination is not already on the partial path. -/
def bnbExpand (acc : BnbAccess) (s : SState) (min_cost : CostV) :
    Graph → List SState → Cache → Except PyErr (List SState × Cache)
  | [], queue, cached => .ok (queue, cached)
  | kv :: rest, queue, cached =>
    if s.source = kv.1.1 ∧ s.sdir = kv.1.2.2 then
      if s.path.any (fun nd => nd.1 = kv.1.2.1) then
        bnbExpand acc s min_cost rest queue cached
      else
        match acc with
        | .multi => do
          let r ← bnbDirsMulti s kv.1 min_cost kv.2 queue cached
          bnbExpand acc s min_cost rest r.1 r.2
        | .single => do
          let r ← bnbDirsSingle s kv.1 kv.2 cached none .infty none
          match r.2.1, r.2.2 with
          | some ch, some lt => do
            let node : SState := ⟨kv.1.2.1, ch.1, lt, ch.2.1, ch.2.2⟩
            if CostV.le lt min_cost then
              let idx := binary_search queue 0 ((queue.length : Int) - 1) lt
              bnbExpand acc s min_cost rest (pyInsert queue idx node) r.1
            else bnbExpand acc s min_cost rest queue r.1
          | _, _ => bnbExpand acc s min_cost rest queue r.1
    else bnbExpand acc s min_cost rest queue cached

/-- The main `while queue:` loop of `branch_and_bound`, with fuel. -/
def bnbLoop (order_len : Nat) (acc : BnbAccess) :
    Nat → List SState → CostV → List (NodeId × Option Dir) → Cache →
    Except PyErr (CostV × List (NodeId × Option Dir))
  | 0, _, _, _, _ => .error .outOfFuel
  | fuel + 1, queue, min_cost, final_path, cached =>
    match queue with
    | [] => .ok (min_cost, final_path)
    | _ :: _ => do
      let idx := select_index queue
      match queue.get? idx with
      | none => .error .indexError
      | some s =>
        let rest := queue.take idx ++ queue.drop (idx + 1)
        if CostV.lt min_cost s.cost then
          bnbLoop order_len acc fuel rest min_cost final_path cached
        else do
          let mf ←
            if s.path.length = order_len then do
              match s.path.head? with
              | none => .error .indexError
              | some fn => do
                let dm ← dlook (s.source, fn.1, s.sdir) s.matrix
                let e ← dlook fn.2 dm
                let fr := matrix_reduction s.matrix none none
                let t1 ← pyAdd s.cost e.cost
                let total ← pyAdd t1 (.num fr.1)
                if CostV.le total min_cost then pure (total, s.path)
                else pure (min_cost, final_path)
            else pure (min_cost, final_path)
          let qc ← bnbExpand acc s mf.1 s.matrix rest cached
          bnbLoop order_len acc fuel qc.1 mf.1 mf.2 qc.2

/-- The start node drawn by `random.choice(list(graph))`: the model takes
an arbitrary draw index `rng` reduced modulo the number of keys
(`random.choice` raises IndexError on an empty sequence). -/
def chosenStartNode (g : Graph) (rng : Nat) : Option NodeId :=
  ((g.map Prod.fst).get? (rng % g.length)).map (·.1)

/-- `branch_and_bound` once the random start node is fixed: the initial
reduction, the frontier seeded with every key leaving the start node, and
the main loop. -/
def bnbFrom (g : Graph) (order : List NodeId) (acc : BnbAccess) (fuel : Nat)
    (start_node : NodeId) : Except PyErr (CostV × List (NodeId × Option Dir)) :=
  let rp := matrix_reduction g none none
  let queue := rp.2.foldl
    (fun q kv =>
      if start_node = kv.1.1 then
        q ++ [⟨kv.1.1, kv.1.2.2, .num rp.1, rp.2, [(kv.1.1, kv.1.2.2)]⟩]
      else q) []
  bnbLoop order.length acc fuel queue .infty [] []

/-- `branch_and_bound(graph, order)` (no deadline): the global RNG enters
only through the drawn start key. -/
def branch_and_bound (g : Graph) (order : List NodeId) (acc : BnbAccess)
    (rng : Nat) (fuel : Nat) : Except PyErr (CostV × List (NodeId × Option Dir)) :=
  match chosenStartNode g rng with
  | none => .error .indexError
  | some start_node => bnbFrom g order acc fuel start_node

/-! ### `dijkstra` (src/app.py lines 1444-1523)

The grid is the function `blocked x y` (`grid[x][y] == ITEM_SYMBOL`); the
`dist` dictionary maps every in-bounds cell (plus `start`) to a value,
`none` standing for `float('inf')`; `pq` is the heap contents (heappop
returns the least `(cost, position)` tuple under lexicographic order; no
two entries are fully equal, since a position is only pushed with strictly
decreasing costs). -/

/-- Strict lexicographic order on heap entries `(cost, (x, y))`. -/
def entryLt (a b : Nat × Pos) : Bool :=
  a.1 < b.1 ∨ (a.1 = b.1 ∧ (a.2.1 < b.2.1 ∨ (a.2.1 = b.2.1 ∧ a.2.2 < b.2.2)))

/-- The least entry of the heap (first occurrence among equals). -/
def heapMin : List (Nat × Pos) → Option (Nat × Pos)
  | [] => none
  | e :: rest =>
    match heapMin rest with
    | none => some e
    | some m => if entryLt m e then some m else some e

/-- `heapq.heappop`: remove and return the least entry. -/
def popMin (l : List (Nat × Pos)) : Option ((Nat × Pos) × List (Nat × Pos)) :=
  match heapMin l with
  | none => none
  | some m => some (m, pyRemove m l)

/-- The neighbor offsets `[(0, 1), (0, -1), (1, 0), (-1, 0)]`. -/
def dijNeighbors : List (Int × Int) := [(0, 1), (0, -1), (1, 0), (-1, 0)]

/-- The Dijkstra loop state: distances, heap, predecessor links. -/
structure DijState where
  dist : Pos → Option Nat
  pq : List (Nat × Pos)
  prev : Pos → Option Pos

/-- Relaxation of one neighbor offset from the popped `(cost, position)`:
skip out-of-bounds and item cells; update distance, predecessor and heap
when `cost + 1` improves the stored distance (`none` = INFINITY). -/
def dijRelax (mx my : Int) (blocked : Int → Int → Bool) (c : Nat) (pos : Pos)
    (st : DijState) (off : Int × Int) : DijState :=
  let x := pos.1 + off.1
  let y := pos.2 + off.2
  if ¬ (0 ≤ x ∧ x < mx ∧ 0 ≤ y ∧ y < my) then st
  else if blocked x y then st
  else
    let nc := c + 1
    let upd : Bool :=
      match st.dist (x, y) with
      | some dc => nc < dc
      | none => true
    if upd then
      { dist := fun p => if p = (x, y) then some nc else st.dist p,
        pq := st.pq ++ [(nc, (x, y))],
        prev := fun p => if p = (x, y) then some pos else st.prev p }
    else st

/-- Outcome of the `while pq:` loop. -/
inductive DijLoopOut where
  | reached : Nat → DijState → DijLoopOut
  | exhausted : Option Pos → DijState → DijLoopOut
  | fuelOut : DijLoopOut

/-- The `while pq:` loop: pop the least entry, break on the target
(recording `total_cost`), otherwise relax the four neighbors; on natural
exit the `position` variable holds the last popped position. -/
def dijLoopGo (mx my : Int) (blocked : Int → Int → Bool) (target : Pos) :
    Nat → DijState → Option Pos → DijLoopOut
  | 0, _, _ => .fuelOut
  | fuel + 1, st, lastPos =>
    match popMin st.pq with
    | none => .exhausted lastPos st
    | some ((c, pos), rest) =>
      if pos = target then .reached c { st with pq := rest }
      else
        let st1 := dijNeighbors.foldl (dijRelax mx my blocked c pos) { st with pq := rest }
        dijLoopGo mx my blocked target fuel st1 (some pos)

/-- Path reconstruction `while position != start: path.append(position);
position = prev[position]`, then append `start` and reverse (built here
front-first).  A missing predecessor is the KeyError the source would
raise. -/
def dijReconstruct (prev : Pos → Option Pos) (start : Pos) :
    Nat → Pos → Except PyErr (List Pos)
  | 0, _ => .error .outOfFuel
  | fuel + 1, position =>
    if position = start then .ok [start]
    else
      match prev position with
      | none => .error .keyError
      | some q => do
        let path ← dijReconstruct prev start fuel q
        pure (path ++ [position])

/-- Result of `dijkstra`: `found path cost` for `return path, total_cost`,
`notFound` for `return [], None`. -/
inductive DijkstraResult where
  | found : List Pos → Nat → DijkstraResult
  | notFound : DijkstraResult
  | err : PyErr → DijkstraResult
deriving DecidableEq, Repr

/-- `dijkstra(grid, start, target)`.  An out-of-bounds target returns
`[], None` immediately; otherwise run the loop from
`dist = {all in-bounds: inf, start: 0}`, `pq = [(0, start)]`, reconstruct
from the final `position`, and return the path when the target lies on it
(`total_cost` is 0 unless the break assigned it). -/
def dijkstra (mx my : Int) (blocked : Int → Int → Bool) (start target : Pos)
    (fuel : Nat) : DijkstraResult :=
  if ¬ (0 ≤ target.1 ∧ target.1 < mx ∧ 0 ≤ target.2 ∧ target.2 < my) then .notFound
  else
    let st0 : DijState :=
      ⟨fun p => if p = start then some 0 else none, [(0, start)], fun _ => none⟩
    match dijLoopGo mx my blocked target fuel st0 none with
    | .fuelOut => .err .outOfFuel
    | .reached c st =>
      match dijReconstruct st.prev start fuel target with
      | .ok path => if target ∈ path then .found path c else .notFound
      | .error e => .err e
    | .exhausted none _ => .err .nameError
    | .exhausted (some pos) st =>
      match dijReconstruct st.prev start fuel pos with
      | .ok path => if target ∈ path then .found path 0 else .notFound
      | .error e => .err e

/-! ### `build_graph_for_order` (src/app.py lines 755-844) -/

/-- The `directions` dict in iteration order. -/
def bgDirections : List (Dir × (Int × Int)) :=
  [(.N, (0, 1)), (.S, (0, -1)), (.E, (1, 0)), (.W, (-1, 0))]

/-- `directions[d]`. -/
def dirOff : Dir → Int × Int
  | .N => (0, 1)
  | .S => (0, -1)
  | .E => (1, 0)
  | .W => (-1, 0)

/-- Dict assignment `d[k] = v`: overwrite in place, else append. -/
def dictSet {α β : Type} [DecidableEq α] (k : α) (v : β) :
    List (α × β) → List (α × β)
  | [] => [(k, v)]
  | (k', v') :: rest => if k' = k then (k, v) :: rest else (k', v') :: dictSet k v rest

/-- `self.map[x][y]` with Python list-index semantics: a negative index
wraps once, an index at or beyond the length raises IndexError. -/
def mapCell (mx my : Int) (blocked : Int → Int → Bool) (x y : Int) :
    Except PyErr Bool :=
  let xi := if x < 0 then x + mx else x
  if ¬ (0 ≤ xi ∧ xi < mx) then .error .indexError
  else
    let yi := if y < 0 then y + my else y
    if ¬ (0 ≤ yi ∧ yi < my) then .error .indexError
    else .ok (blocked xi yi)

/-- The builder's `is_valid_position`: in bounds *and* not an item cell;
the cell lookup is evaluated unconditionally (as in the source, where
`is_open_position` is computed before the conjunction). -/
def bg_is_valid_position (mx my : Int) (blocked : Int → Int → Bool) (x y : Int) :
    Except PyErr Bool := do
  let cell ← mapCell mx my blocked x y
  pure (decide (0 ≤ x ∧ x < mx ∧ 0 ≤ y ∧ y < my) && !cell)

/-- `product_info[n]` (only item nodes are ever looked up on the reached
paths; a `Start`/`End` subscript would be the same KeyError). -/
def bgLookupProd (products : List (Nat × Pos)) : NodeId → Except PyErr Pos
  | .item i => dlook i products
  | _ => .error .keyError

/-- Skipped source/destination pairs. -/
def bgPairSkip (s e : NodeId) : Bool :=
  s = e ∨ s = NodeId.End ∨ e = NodeId.Start ∨ (s = NodeId.Start ∧ e = NodeId.End)

/-- The `for end_dir, (dx, dy) in directions.items()` loop building
`valid_directions` for one `(start, end, start_dir)` triple. -/
def bgEndDirs (mx my : Int) (blocked : Int → Int → Bool)
    (products : List (Nat × Pos)) (startPos endPos : Pos) (fuel : Nat)
    (s e : NodeId) (sdir : Option Dir) :
    List (Dir × (Int × Int)) → DirMap → Except PyErr DirMap
  | [], vd => .ok vd
  | (ed, off) :: rest, vd => do
    let t ←
      if e = NodeId.End then pure (endPos.1, endPos.2, (none : Option Dir))
      else do
        let ep ← bgLookupProd products e
        pure (ep.1 + off.1, ep.2 + off.2, some ed)
    let v ← bg_is_valid_position mx my blocked t.1 t.2.1
    if ¬ v then bgEndDirs mx my blocked products startPos endPos fuel s e sdir rest vd
    else do
      let spOpt ←
        if s = NodeId.Start then pure (some startPos)
        else do
          let sp ← bgLookupProd products s
          match sdir with
          | none => Except.error PyErr.keyError
          | some sd => do
            let sx := sp.1 + (dirOff sd).1
            let sy := sp.2 + (dirOff sd).2
            let v2 ← bg_is_valid_position mx my blocked sx sy
            if ¬ v2 then pure none else pure (some (sx, sy))
      match spOpt with
      | none => bgEndDirs mx my blocked products startPos endPos fuel s e sdir rest vd
      | some spos => do
        let pc ← (match dijkstra mx my blocked spos (t.1, t.2.1) fuel with
          | .found p c => Except.ok (p, CostV.num (c : Int))
          | .notFound => Except.ok (([] : List Pos), CostV.null)
          | .err er => Except.error er)
        let updated ← (match collapse_directions pc.1 with
          | some up => Except.ok up
          | none => Except.error PyErr.indexError)
        bgEndDirs mx my blocked products startPos endPos fuel s e sdir rest
          (dictSet t.2.2 ⟨(t.1, t.2.1), pc.2, updated⟩ vd)

/-- The `for start_dir in directions:` loop (for a `Start` source the
direction is overwritten with `None`, so the same key is rebuilt four
times). -/
def bgStartDirs (mx my : Int) (blocked : Int → Int → Bool)
    (products : List (Nat × Pos)) (startPos endPos : Pos) (fuel : Nat)
    (s e : NodeId) : List Dir → Graph → Except PyErr Graph
  | [], g => .ok g
  | sd :: rest, g => do
    let sdir := if s = NodeId.Start then none else some sd
    let vd ← bgEndDirs mx my blocked products startPos endPos fuel s e sdir
      bgDirections []
    let g' := if vd.isEmpty then g else dictSet (s, e, sdir) vd g
    bgStartDirs mx my blocked products startPos endPos fuel s e rest g'

/-- The pair loop over `product_ids × product_ids`. -/
def bgPairs (mx my : Int) (blocked : Int → Int → Bool)
    (products : List (Nat × Pos)) (startPos endPos : Pos) (fuel : Nat) :
    List (NodeId × NodeId) → Graph → Except PyErr Graph
  | [], g => .ok g
  | (s, e) :: rest, g => do
    if bgPairSkip s e then bgPairs mx my blocked products startPos endPos fuel rest g
    else do
      let g' ← bgStartDirs mx my blocked products startPos endPos fuel s e
        [Dir.N, Dir.S, Dir.E, Dir.W] g
      bgPairs mx my blocked products startPos endPos fuel rest g'

/-- `build_graph_for_order(product_ids)`: the synthetic zero-cost
`(End, Start, None)` edge, then every surviving pair. -/
def build_graph_for_order (mx my : Int) (blocked : Int → Int → Bool)
    (products : List (Nat × Pos)) (startPos endPos : Pos)
    (product_ids : List NodeId) (fuel : Nat) : Except PyErr Graph :=
  let g0 : Graph :=
    [((NodeId.End, NodeId.Start, none),
      [(none, ⟨endPos, .num 0, [endPos, startPos]⟩)])]
  bgPairs mx my blocked products startPos endPos fuel
    (product_ids.bind (fun s => product_ids.map (fun e => (s, e)))) g0

/-! ### Further concrete example data -/

/-- The order `[Start, A, B, End]`. -/
def ord2 : List NodeId := [NodeId.Start, nA, nB, NodeId.End]

/-- A second access graph over `Start, A, B, End` (minimum costs
Start→A = 1, Start→B = 9, A↔B = 1, A→End = 9, B→End = 1). -/
def G4 : Graph :=
  [ ((NodeId.End, NodeId.Start, none), [(none, e0 0)]),
    ((NodeId.Start, nA, none), [(some .N, e0 1)]),
    ((NodeId.Start, nB, none), [(some .N, e0 9)]),
    ((nA, nB, some .N), [(some .N, e0 1)]),
    ((nA, NodeId.End, some .N), [(none, e0 9)]),
    ((nB, nA, some .N), [(some .N, e0 1)]),
    ((nB, NodeId.End, some .N), [(none, e0 1)]) ]

/-- 3×3 map for the walled-in scenario: item cells at `(0,0)`, `(1,0)`
and `(0,1)`. -/
def blocked6 (x y : Int) : Bool := (x, y) ∈ [((0 : Int), (0 : Int)), (1, 0), (0, 1)]

/-- Product positions of the walled-in scenario: item 1 (`A`) sits at
`(0,0)`; its four approach cells are `(0,1)` (item), `(0,-1)` (out of
bounds), `(1,0)` (item) and `(-1,0)` (out of bounds). -/
def prods6 : List (Nat × Pos) := [(1, (0, 0)), (2, (1, 0)), (3, (0, 1))]

/-- The order `[Start, A, End]` referencing the walled-in item. -/
def ord6 : List NodeId := [NodeId.Start, nA, NodeId.End]

/-- The graph `build_graph_for_order` produces for the walled-in scenario:
only the synthetic `(End, Start, None)` edge. -/
def G6 : Graph :=
  [((NodeId.End, NodeId.Start, none),
    [(none, ⟨(2, 2), .num 0, [(2, 2), (2, 2)]⟩)])]

/-! ### Predicates and invariants for the `dijkstra` proofs -/

/-- `p` lies on the grid and is not an item cell. -/
def openP (mx my : Int) (blocked : Int → Int → Bool) (p : Pos) : Prop :=
  (0 ≤ p.1 ∧ p.1 < mx ∧ 0 ≤ p.2 ∧ p.2 < my) ∧ blocked p.1 p.2 = false

/-- Manhattan distance. -/
def manh (s p : Pos) : Nat := (p.1 - s.1).natAbs + (p.2 - s.2).natAbs

/-- Consecutive positions differ by exactly one unit step in one
coordinate. -/
def unitStepsB : List Pos → Bool
  | p :: q :: rest =>
    ((p.1 - q.1).natAbs + (p.2 - q.2).natAbs = 1) && unitStepsB (q :: rest)
  | _ => true

/-- The invariant of the `dijkstra` main loop.  `S` is the (ghost) set of
settled positions — popped at their final distance — and `lp` the cost of
the most recent pop. -/
structure DijInv (mx my : Int) (blocked : Int → Int → Bool) (start : Pos)
    (st : DijState) (S : Pos → Prop) (lp : Nat) : Prop where
  distStart : st.dist start = some 0
  zeroOnlyStart : ∀ p d, st.dist p = some d → d = 0 → p = start
  distOpen : ∀ p d, st.dist p = some d → p = start ∨ openP mx my blocked p
  pqDist : ∀ c p, (c, p) ∈ st.pq → ∃ d, st.dist p = some d ∧ d ≤ c ∧ lp ≤ c
  unsettledEntry : ∀ p d, ¬ S p → st.dist p = some d → (d, p) ∈ st.pq
  settled : ∀ p, S p → ∃ d, st.dist p = some d ∧ d ≤ lp ∧
    ∀ off ∈ dijNeighbors, openP mx my blocked (p.1 + off.1, p.2 + off.2) →
      ∃ dq, st.dist (p.1 + off.1, p.2 + off.2) = some dq ∧ dq ≤ d + 1
  prevOk : ∀ p q, st.prev p = some q → S q ∧ openP mx my blocked p ∧
    (∃ dq, st.dist q = some dq ∧ st.dist p = some (dq + 1)) ∧
    ∃ off ∈ dijNeighbors, p = (q.1 + off.1, q.2 + off.2)
  distPrev : ∀ p d, st.dist p = some d → p ≠ start → ∃ q, st.prev p = some q
  startTracked : S start ∨ ((0, start) ∈ st.pq ∧ ∀ p, ¬ S p)

/-- The part of the invariant the reconstruction needs (it does not
mention the heap, so it survives the final pop). -/
structure ChainInv (start : Pos) (st : DijState) : Prop where
  distStart : st.dist start = some 0
  zeroOnlyStart : ∀ p d, st.dist p = some d → d = 0 → p = start
  prevStep : ∀ p q, st.prev p = some q →
    (∃ dq, st.dist q = some dq ∧ st.dist p = some (dq + 1)) ∧
    ∃ off ∈ dijNeighbors, p = (q.1 + off.1, q.2 + off.2)
  distPrev : ∀ p d, st.dist p = some d → p ≠ start → ∃ q, st.prev p = some q

/-- The additional invariant for the obstacle-free-grid analysis: every
stored distance is at least the Manhattan distance from `start` and at
most `(mx + my).toNat` (a grid diameter bound), and settled positions
carry exactly their Manhattan distance. -/
structure ManhInv (mx my : Int) (start : Pos) (st : DijState) (S : Pos → Prop) : Prop where
  lower : ∀ p d, st.dist p = some d → manh start p ≤ d
  upper : ∀ p d, st.dist p = some d → d ≤ (mx + my).toNat
  exact : ∀ p, S p → st.dist p = some (manh start p)

/-- All in-bounds cells. -/
def cellList (mx my : Int) : List Pos :=
  (List.range mx.toNat).bind
    (fun (i : Nat) =>
      (List.range my.toNat).map (fun (j : Nat) => ((i : Int), (j : Int))))

/-- The weight of one cell in the termination potential: an unset distance
counts as the cap `(mx + my).toNat + 1`, a set one as its value. -/
def dijWeight (mx my : Int) (st : DijState) (p : Pos) : Nat :=
  match st.dist p with
  | none => (mx + my).toNat + 1
  | some d => d

/-- The termination potential: heap size plus total cell weight; every
loop iteration strictly decreases it. -/
def dijPot (mx my : Int) (st : DijState) : Nat :=
  st.pq.length + ((cellList mx my).map (dijWeight mx my st)).sum

/-- A fuel amount exceeding every possible initial potential. -/
def dijFuelBound (mx my : Int) : Nat :=
  2 + mx.toNat * my.toNat * ((mx + my).toNat + 1)

/-- One step from `p` back toward `s` along the canonical (y-first, then
x) monotone path; only meaningful for `p ≠ s`. -/
def stepToward (s p : Pos) : Pos :=
  if p.2 ≠ s.2 then (p.1, if s.2 < p.2 then p.2 - 1 else p.2 + 1)
  else (if s.1 < p.1 then p.1 - 1 else p.1 + 1, p.2)

/-- The invariant maintained while the four neighbor relaxations of a
freshly popped position `pos` (whose final distance is `c`) run; `S` is
the settled set from before the pop, `pos` itself settling. -/
structure RelaxInv (mx my : Int) (blocked : Int → Int → Bool) (start : Pos)
    (st : DijState) (S : Pos → Prop) (pos : Pos) (c : Nat) : Prop where
  distStart : st.dist start = some 0
  zeroOnlyStart : ∀ p d, st.dist p = some d → d = 0 → p = start
  distOpen : ∀ p d, st.dist p = some d → p = start ∨ openP mx my blocked p
  pqDist : ∀ ce p, (ce, p) ∈ st.pq → ∃ d, st.dist p = some d ∧ d ≤ ce ∧ c ≤ ce
  unsettledEntry : ∀ p d, ¬ (S p ∨ p = pos) → st.dist p = some d → (d, p) ∈ st.pq
  settledOld : ∀ p, S p → ∃ d, st.dist p = some d ∧ d ≤ c ∧
    ∀ off ∈ dijNeighbors, openP mx my blocked (p.1 + off.1, p.2 + off.2) →
      ∃ dq, st.dist (p.1 + off.1, p.2 + off.2) = some dq ∧ dq ≤ d + 1
  posDist : st.dist pos = some c
  prevOk : ∀ p q, st.prev p = some q → (S q ∨ q = pos) ∧ openP mx my blocked p ∧
    (∃ dq, st.dist q = some dq ∧ st.dist p = some (dq + 1)) ∧
    ∃ off ∈ dijNeighbors, p = (q.1 + off.1, q.2 + off.2)
  distPrev : ∀ p d, st.dist p = some d → p ≠ start → ∃ q, st.prev p = some q
  startIn : S start ∨ pos = start

/-- The sample blocked-cell predicate for the pathfinder runs: items at
`(1, 0)` and `(1, 1)` of a 3×3 grid. -/
def dBlocked : Int → Int → Bool := fun x y => x == 1 && (y == 0 || y == 1)

/-- The initial loop state of `dijkstra`: `start` at distance 0, a
one-entry heap, no predecessors. -/
def dijInit (start : Pos) : DijState :=
  ⟨fun p => if p = start then some 0 else none, [(0, start)], fun _ => none⟩

end ItemRouting

namespace ItemRouting

/-! ### Lemmas about `dpure` and `chainD` -/

lemma dpure_eq_none_iff {p q : Pos} : dpure p q = none ↔ p = q := by
  unfold dpure
  split_ifs <;> simp_all [Prod.ext_iff]

lemma dpure_xp_iff {p q : Pos} : dpure p q = some MDir.xp ↔ q.1 < p.1 := by
  unfold dpure
  split_ifs <;> simp_all <;> omega

lemma dpure_xm_iff {p q : Pos} : dpure p q = some MDir.xm ↔ p.1 < q.1 := by
  unfold dpure
  split_ifs <;> simp_all <;> omega

lemma dpure_yp_iff {p q : Pos} : dpure p q = some MDir.yp ↔ p.1 = q.1 ∧ q.2 < p.2 := by
  unfold dpure
  split_ifs <;> simp_all <;> omega

lemma dpure_ym_iff {p q : Pos} : dpure p q = some MDir.ym ↔ p.1 = q.1 ∧ p.2 < q.2 := by
  unfold dpure
  split_ifs <;> simp_all <;> omega

/-- Two consecutive steps in the same pure direction compose to a step in
that direction. -/
lemma dpure_trans {a b c : Pos} {d : MDir} (h1 : dpure a b = some d)
    (h2 : dpure b c = some d) : dpure a c = some d := by
  cases d
  · rw [dpure_xp_iff] at h1 h2 ⊢; omega
  · rw [dpure_xm_iff] at h1 h2 ⊢; omega
  · rw [dpure_yp_iff] at h1 h2 ⊢
    exact ⟨h1.1.trans h2.1, h2.2.trans h1.2⟩
  · rw [dpure_ym_iff] at h1 h2 ⊢
    exact ⟨h1.1.trans h2.1, h1.2.trans h2.2⟩

lemma chainD_cons_some {a b : Pos} {din dout : Option MDir} {rest : List Pos} {d2 : MDir}
    (hd : dpure a b = some d2) :
    chainD a din (b :: rest) dout ↔ din ≠ some d2 ∧ chainD b (some d2) rest dout := by
  simp only [chainD, hd]

lemma chainD_cons_none {a b : Pos} {din dout : Option MDir} {rest : List Pos}
    (hd : dpure a b = none) : ¬ chainD a din (b :: rest) dout := by
  simp only [chainD, hd]
  exact id

lemma chainD_nil {a : Pos} {din dout : Option MDir} :
    chainD a din [] dout ↔ din = dout := Iff.rfl

/-- Extending the final step of a chain by a move in the same direction. -/
lemma chainD_extend {q : Pos} {d : MDir} :
    ∀ (l : List Pos) (a : Pos) (din : Option MDir) (p : Pos),
      chainD a din (l ++ [p]) (some d) → dpure p q = some d →
      chainD a din (l ++ [q]) (some d) := by
  intro l
  induction l with
  | nil =>
    intro a din p h hpq
    simp only [List.nil_append] at h ⊢
    rcases hd : dpure a p with _ | d2
    · exact absurd h (chainD_cons_none hd)
    · obtain ⟨hne, hrest⟩ := (chainD_cons_some hd).mp h
      have hd2 : d2 = d := by simpa [chainD_nil] using hrest
      subst hd2
      rw [chainD_cons_some (dpure_trans hd hpq)]
      exact ⟨hne, rfl⟩
  | cons b l ih =>
    intro a din p h hpq
    simp only [List.cons_append] at h ⊢
    rcases hd : dpure a b with _ | d2
    · exact absurd h (chainD_cons_none hd)
    · obtain ⟨hne, hrest⟩ := (chainD_cons_some hd).mp h
      rw [chainD_cons_some hd]
      exact ⟨hne, ih b (some d2) p hrest hpq⟩

/-- Appending a turning step (a new direction) to a chain. -/
lemma chainD_append {q : Pos} {d2 : MDir} :
    ∀ (l : List Pos) (a : Pos) (din : Option MDir) (p : Pos) (d : MDir),
      chainD a din (l ++ [p]) (some d) → dpure p q = some d2 → d2 ≠ d →
      chainD a din (l ++ [p, q]) (some d2) := by
  intro l
  induction l with
  | nil =>
    intro a din p d h hpq hne
    simp only [List.nil_append] at h ⊢
    rcases hd : dpure a p with _ | d3
    · exact absurd h (chainD_cons_none hd)
    · obtain ⟨hne2, hrest⟩ := (chainD_cons_some hd).mp h
      have hd3 : d3 = d := by simpa [chainD_nil] using hrest
      subst hd3
      rw [chainD_cons_some hd]
      refine ⟨hne2, ?_⟩
      rw [chainD_cons_some hpq]
      exact ⟨by simp [Ne.symm hne], rfl⟩
  | cons b l ih =>
    intro a din p d h hpq hne
    simp only [List.cons_append] at h ⊢
    rcases hd : dpure a b with _ | d3
    · exact absurd h (chainD_cons_none hd)
    · obtain ⟨hne2, hrest⟩ := (chainD_cons_some hd).mp h
      rw [chainD_cons_some hd]
      exact ⟨hne2, ih b (some d3) p d hrest hpq hne⟩

/-! ### The `collapse_directions` loop invariant -/

lemma cdDir_none {s : CDState} {q : Pos} (h : dpure (s.prevx, s.prevy) q = none) :
    cdDir s q = s.dir := by
  unfold cdDir
  rw [h]

lemma cdDir_some {s : CDState} {q : Pos} {d : MDir}
    (h : dpure (s.prevx, s.prevy) q = some d) : cdDir s q = some d := by
  unfold cdDir
  rw [h]

/-- Evaluation of `cdStep` in the skip-second-position branch. -/
lemma cdStep_eq_skip {s : CDState} {q : Pos} (h : s.prevDir = none) :
    cdStep true s q =
      { s with prevDir := cdDir s q, dir := cdDir s q, prevx := q.1, prevy := q.2 } := by
  unfold cdStep
  rw [if_pos ⟨rfl, h⟩]

/-- Evaluation of `cdStep` in the direction-changed branch. -/
lemma cdStep_eq_turn {s : CDState} {q : Pos} (h1 : s.prevDir ≠ none)
    (h2 : s.prevDir ≠ cdDir s q) :
    cdStep true s q =
      { result := s.result ++ [(s.prevx, s.prevy)], prevx := q.1, prevy := q.2,
        prevDir := cdDir s q, dir := cdDir s q } := by
  unfold cdStep
  rw [if_neg (by simp [h1]), if_pos h2]

/-- Evaluation of `cdStep` in the same-direction branch. -/
lemma cdStep_eq_keep {s : CDState} {q : Pos} (h1 : s.prevDir ≠ none)
    (h2 : s.prevDir = cdDir s q) :
    cdStep true s q = { s with prevx := q.1, prevy := q.2, dir := cdDir s q } := by
  unfold cdStep
  rw [if_neg (by simp [h1]), if_neg (by simp [h2])]

/-- Every branch of `cdStep` stores the processed position into
`(prev_x, prev_y)`. -/
lemma cdStep_prev (sk : Bool) (s : CDState) (q : Pos) :
    ((cdStep sk s q).prevx, (cdStep sk s q).prevy) = q := by
  unfold cdStep
  dsimp only
  split
  · rfl
  · split <;> rfl

/-- After a nonempty loop, `(prev_x, prev_y)` holds the last input position. -/
lemma cdLoop_prev (sk : Bool) :
    ∀ (l : List Pos) (s : CDState) (hl : l ≠ []),
      ((cdLoop sk s l).prevx, (cdLoop sk s l).prevy) = l.getLast hl := by
  intro l
  induction l with
  | nil => intro s hl; exact absurd rfl hl
  | cons q rest ih =>
    intro s _
    rcases rest with _ | ⟨r, rest'⟩
    · simpa [cdLoop] using cdStep_prev sk s q
    · rw [List.getLast_cons (by simp)]
      exact ih (cdStep sk s q) (by simp)

lemma cdStep_inv (p0 : Pos) (s : CDState) (q : Pos) (h : cdINV p0 s) :
    cdINV p0 (cdStep true s q) := by
  obtain ⟨hpd, hcase⟩ := h
  rcases hcase with ⟨hdir, hres, hprev⟩ | ⟨d, ms, hdir, hres, hchain⟩
  · -- nothing has moved yet: prevDir = dir = none, skip branch taken
    rw [cdStep_eq_skip (hpd.trans hdir)]
    rcases hd : dpure (s.prevx, s.prevy) q with _ | d'
    · -- q equals the previous position: state stays trivial
      have hq : q = p0 := by rw [← hprev]; exact (dpure_eq_none_iff.mp hd).symm
      rw [cdDir_none hd]
      exact ⟨rfl, Or.inl ⟨hdir, hres, by simp [hq]⟩⟩
    · -- first real move: the chain starts
      rw [cdDir_some hd]
      refine ⟨rfl, Or.inr ⟨d', [], rfl, hres, ?_⟩⟩
      simp only [List.nil_append]
      rw [show ((q.1, q.2) : Pos) = q from rfl]
      rw [chainD_cons_some (hprev ▸ hd)]
      exact ⟨by simp, rfl⟩
  · -- already moving in direction d
    have hpdn : s.prevDir ≠ none := by rw [hpd, hdir]; simp
    rcases hd : dpure (s.prevx, s.prevy) q with _ | d2
    · -- pause step: direction carries over, nothing changes but prev
      have hq : (s.prevx, s.prevy) = q := dpure_eq_none_iff.mp hd
      rw [cdStep_eq_keep hpdn (by rw [cdDir_none hd, hpd])]
      refine ⟨by rw [cdDir_none hd, hpd], Or.inr ⟨d, ms, ?_, hres, ?_⟩⟩
      · show cdDir s q = some d
        rw [cdDir_none hd, hdir]
      · show chainD p0 none (ms ++ [((q.1, q.2) : Pos)]) (some d)
        rw [show ((q.1, q.2) : Pos) = q from rfl, ← hq]
        exact hchain
    · by_cases hdd : d2 = d
      · -- same direction: extend last chain step
        subst hdd
        rw [cdStep_eq_keep hpdn (by rw [cdDir_some hd, hpd, hdir])]
        refine ⟨by rw [cdDir_some hd, hpd, hdir], Or.inr ⟨d2, ms, ?_, hres, ?_⟩⟩
        · show cdDir s q = some d2
          rw [cdDir_some hd]
        · show chainD p0 none (ms ++ [((q.1, q.2) : Pos)]) (some d2)
          rw [show ((q.1, q.2) : Pos) = q from rfl]
          exact chainD_extend ms p0 none (s.prevx, s.prevy) hchain hd
      · -- turn: append the previous position as a waypoint
        rw [cdStep_eq_turn hpdn (by rw [cdDir_some hd, hpd, hdir]; simp [Ne.symm hdd])]
        refine ⟨rfl, Or.inr ⟨d2, ms ++ [(s.prevx, s.prevy)], ?_, by simp [hres], ?_⟩⟩
        · show cdDir s q = some d2
          rw [cdDir_some hd]
        · show chainD p0 none ((ms ++ [(s.prevx, s.prevy)]) ++ [((q.1, q.2) : Pos)]) (some d2)
          rw [show ((q.1, q.2) : Pos) = q from rfl]
          have := chainD_append ms p0 none (s.prevx, s.prevy) d hchain hd hdd
          simpa using this

lemma cdLoop_inv (p0 : Pos) :
    ∀ (l : List Pos) (s : CDState), cdINV p0 s → cdINV p0 (cdLoop true s l) := by
  intro l
  induction l with
  | nil => intro s h; exact h
  | cons q rest ih => intro s h; exact ih _ (cdStep_inv p0 s q h)

/-! ### Collapsed lists are fixed points -/

/-- Collapsing any two-element list returns it unchanged. -/
lemma collapse_pair (x y : Pos) : collapse_directions [x, y] = some [x, y] := by
  have h := cdStep_eq_skip (s := ⟨[x], x.1, x.2, none, none⟩) (q := y) rfl
  simp only [collapse_directions, cdLoop, h]
  rfl

/-- Running the loop along an alternating chain appends every position but
the last as a waypoint. -/
lemma cdLoop_chain :
    ∀ (rest : List Pos) (res : List Pos) (p : Pos) (d : MDir) (dout : Option MDir),
      chainD p (some d) rest dout →
      (cdLoop true ⟨res, p.1, p.2, some d, some d⟩ rest).result
        = res ++ (p :: rest).dropLast := by
  intro rest
  induction rest with
  | nil => intro res p d dout _; simp [cdLoop]
  | cons q rest' ih =>
    intro res p d dout h
    rcases hd : dpure p q with _ | d2
    · exact absurd h (chainD_cons_none hd)
    · obtain ⟨hne, hrest⟩ := (chainD_cons_some hd).mp h
      have hd' : dpure (((⟨res, p.1, p.2, some d, some d⟩ : CDState)).prevx,
          ((⟨res, p.1, p.2, some d, some d⟩ : CDState)).prevy) q = some d2 := by
        rw [show ((p.1, p.2) : Pos) = p from rfl]
        exact hd
      have hstep : cdStep true ⟨res, p.1, p.2, some d, some d⟩ q
          = ⟨res ++ [(p.1, p.2)], q.1, q.2, some d2, some d2⟩ := by
        rw [cdStep_eq_turn (by simp) (by rw [cdDir_some hd']; simpa using hne),
          cdDir_some hd']
      rw [cdLoop, hstep, ih (res ++ [(p.1, p.2)]) q d2 dout hrest]
      simp

/-- Collapsing a list whose steps form an alternating pure chain returns it
unchanged. -/
lemma collapse_of_chain (a b : Pos) (rest : List Pos) (d1 : MDir) (dout : Option MDir)
    (h1 : dpure a b = some d1) (h : chainD b (some d1) rest dout) :
    collapse_directions (a :: b :: rest) = some (a :: b :: rest) := by
  simp only [collapse_directions]
  have h1' : dpure (((⟨[a], a.1, a.2, none, none⟩ : CDState)).prevx,
      ((⟨[a], a.1, a.2, none, none⟩ : CDState)).prevy) b = some d1 := by
    rw [show ((a.1, a.2) : Pos) = a from rfl]
    exact h1
  have hstep : cdStep true ⟨[a], a.1, a.2, none, none⟩ b
      = ⟨[a], b.1, b.2, some d1, some d1⟩ := by
    rw [cdStep_eq_skip rfl, cdDir_some h1']
  rw [cdLoop, hstep, cdLoop_chain rest [a] b d1 dout h]
  have hlast : (a :: b :: rest).getLast (by simp) = (b :: rest).getLast (by simp) := by
    rw [List.getLast_cons (by simp)]
  rw [hlast]
  simp only [Option.some.injEq, List.cons_append, List.cons.injEq, true_and, List.nil_append]
  exact List.dropLast_append_getLast (by simp)

/-- **C9.** `collapse_directions` is idempotent: whenever it produces an
output (it does for every nonempty input; on the empty list the final
`positions[-1]` raises IndexError, modelled as `none`), applying it to that
output returns the output unchanged. -/
theorem collapse_directions_idempotent (l r : List Pos)
    (h : collapse_directions l = some r) : collapse_directions r = some r := by
  match l with
  | [] => simp [collapse_directions] at h
  | p :: rest =>
    obtain ⟨hpd, hcase⟩ :=
      cdLoop_inv p rest ⟨[p], p.1, p.2, none, none⟩ ⟨rfl, Or.inl ⟨rfl, rfl, rfl⟩⟩
    simp only [collapse_directions, Option.some.injEq] at h
    rcases hcase with ⟨hdir, hres, hprev⟩ | ⟨d, ms, hdir, hres, hchain⟩
    · -- the input never moved: the output is the pair [p, p]
      have hlast : (p :: rest).getLast (by simp) = p := by
        rcases rest with _ | ⟨q, rest'⟩
        · rfl
        · rw [List.getLast_cons (by simp),
            ← cdLoop_prev true (q :: rest') ⟨[p], p.1, p.2, none, none⟩ (by simp)]
          exact hprev
      rw [← h, hres, hlast]
      exact collapse_pair p p
    · -- the output is an alternating pure chain
      have hrne : rest ≠ [] := by
        intro hre
        subst hre
        simp [cdLoop] at hdir
      have hprevF := cdLoop_prev true rest ⟨[p], p.1, p.2, none, none⟩ hrne
      have hlast : (p :: rest).getLast (by simp) = rest.getLast hrne :=
        List.getLast_cons hrne
      have hr2 : r = p :: (ms ++
          [((cdLoop true ⟨[p], p.1, p.2, none, none⟩ rest).prevx,
            (cdLoop true ⟨[p], p.1, p.2, none, none⟩ rest).prevy)]) := by
        rw [← h, hres, hlast, ← hprevF]
        simp
      rcases hms : ms ++
          [((cdLoop true ⟨[p], p.1, p.2, none, none⟩ rest).prevx,
            (cdLoop true ⟨[p], p.1, p.2, none, none⟩ rest).prevy)] with _ | ⟨b, rest'⟩
      · exact absurd hms (by simp)
      · rw [hms] at hchain hr2
        rcases hd : dpure p b with _ | d2
        · exact absurd hchain (chainD_cons_none hd)
        · obtain ⟨-, hch⟩ := (chainD_cons_some hd).mp hchain
          rw [hr2]
          exact collapse_of_chain p b rest' d2 (some d) hd hch

/-- Witness for C9 at a concrete input: collapsing `[(0,0),(1,0),(1,1)]`
yields itself, and collapsing that output again returns it unchanged. -/
theorem collapse_directions_idempotent_witness :
    collapse_directions [((0 : Int), (0 : Int)), (1, 0), (1, 1)]
        = some [((0 : Int), (0 : Int)), (1, 0), (1, 1)] ∧
      collapse_directions [((0 : Int), (0 : Int)), (1, 0), (1, 1)]
        = some [((0 : Int), (0 : Int)), (1, 0), (1, 1)] := by
  have h1 : collapse_directions [((0 : Int), (0 : Int)), (1, 0), (1, 1)]
      = some [((0 : Int), (0 : Int)), (1, 0), (1, 1)] := by decide
  exact ⟨h1, collapse_directions_idempotent _ _ h1⟩

/-! ### Claim 2: the reduction cost bookkeeping and the lower-bound claim -/

lemma reduction_fold_sum :
    ∀ (keys : List GKey) (c : Int) (l : List Int) (t : Graph), c = l.sum →
      (keys.foldl
        (fun acc key =>
          let p := reduction_pass acc.2 key
          (acc.1 + p.1, p.2)) (c, t)).1
      = ((keys.foldl
          (fun (acc : List Int × Graph) key =>
            let p := reduction_pass acc.2 key
            (acc.1 ++ [p.1], p.2)) (l, t)).1).sum := by
  intro keys
  induction keys with
  | nil => intro c l t h; simpa using h
  | cons k ks ih =>
    intro c l t h
    simp only [List.foldl_cons]
    exact ih _ _ _ (by simp [h])

/-- **C2 (amended).** The reduction cost returned by `matrix_reduction`
equals the sum of all the row/column subtraction amounts it performs (one
row amount and one `End`-column amount per outer pass).  The further claim
that this total is a valid lower-bound addend is refuted by
`matrix_reduction_lower_bound_counterexample`. -/
theorem matrix_reduction_cost_eq_sum_amounts (m : Graph) (src : Option GKey)
    (d : Option Dir) :
    (matrix_reduction m src d).1 = (reduction_amounts m src).sum := by
  unfold matrix_reduction reduction_amounts
  exact reduction_fold_sum _ 0 [] _ rfl

/-- **C2 (counterexample).** On the access graph `G2`, the returned
reduction cost is 9, yet the tour `Start → A → End → Start` costs 7 in the
input graph and 0 in the reduced graph: `7 ≥ 9 + 0` fails, so the returned
total is not a valid lower-bound addend for every completable tour. -/
theorem matrix_reduction_lower_bound_counterexample :
    tourCost G2 tour0 = some 7 ∧
    (matrix_reduction G2).1 = 9 ∧
    tourCost (matrix_reduction G2).2 tour0 = some 0 ∧
    ¬ ((matrix_reduction G2).1 + 0 ≤ 7) := by decide

/-! ### Claim 1: the frontier extraction -/

lemma ltInfty_eq_isNum (c : CostV) : CostV.lt c .infty = c.isNum := by
  cases c <;> rfl

lemma fold_lastFinite :
    ∀ (l : List SState) (k acc : Nat),
      ((l.enumFrom k).foldl
        (fun a is => if CostV.lt is.2.cost .infty then is.1 else a) acc)
      = match ((l.enumFrom k).filter (fun is => is.2.cost.isNum)).getLast? with
        | some (i, _) => i
        | none => acc := by
  intro l
  induction l with
  | nil => intro k acc; rfl
  | cons s t ih =>
    intro k acc
    simp only [List.enumFrom_cons, List.foldl_cons, List.filter_cons]
    rw [ltInfty_eq_isNum]
    cases hs : s.cost.isNum
    · simp only [Bool.false_eq_true, if_false, cond_false]
      exact ih (k + 1) acc
    · simp only [if_true, cond_true]
      rw [ih (k + 1) k]
      rcases hfr : ((t.enumFrom (k + 1)).filter (fun is => is.2.cost.isNum)).getLast? with
        _ | ⟨i, s'⟩
      · rw [List.getLast?_eq_none_iff.mp hfr]
        rfl
      · have hne : (t.enumFrom (k + 1)).filter (fun is => is.2.cost.isNum) ≠ [] := by
          intro hnil
          rw [hnil] at hfr
          exact Option.noConfusion hfr
        rcases hx : (t.enumFrom (k + 1)).filter (fun is => is.2.cost.isNum) with
          _ | ⟨x, xs⟩
        · exact absurd hx hne
        · rw [hx] at hfr
          rw [hx, List.getLast?_cons_cons, hfr]

/-- **C1 (amended).** The state removed from the frontier at the top of
`branch_and_bound`'s main loop is the one at the *last* index whose cost is
finite (index 0 when none is): the `lowest_cost_node` comparator is never
updated, so every finite-cost entry overwrites `index`.  It is therefore
not in general a minimum-cost state. -/
theorem select_index_eq_lastFiniteIdx (queue : List SState) :
    select_index queue = lastFiniteIdx queue := by
  rcases queue with _ | ⟨s, _ | ⟨s2, t⟩⟩
  · rfl
  · unfold select_index lastFiniteIdx
    rw [if_neg (by simp)]
    cases hs : s.cost.isNum <;>
      simp [List.enum, List.enumFrom, List.filter, hs]
  · unfold select_index lastFiniteIdx
    rw [if_pos (by simp)]
    exact fold_lastFinite (s :: s2 :: t) 0 0

/-- **C1 (counterexample).** A two-entry frontier in which the extraction
removes the entry at index 1 (cost 5) while the remaining entry at index 0
has strictly smaller cost 0: the removed state is not of minimal cost. -/
theorem select_index_not_min_counterexample :
    select_index qex = 1 ∧
    CostV.lt (qex.get ⟨0, by decide⟩).cost (qex.get ⟨1, by decide⟩).cost = true := by
  decide

/-! ### Claim 8: the sorted-order phase of `localized_min_path` -/

lemma ok_bind {α β : Type} (a : α) (f : α → Except PyErr β) :
    (Except.ok a >>= f) = f a := rfl

lemma findGreaterIdx_bounds (key : NodeId → CostV) (x : NodeId) :
    ∀ (l : List NodeId) (k i : Nat), findGreaterIdx key x l k = some i →
      k ≤ i ∧ i < k + l.length := by
  intro l
  induction l with
  | nil => intro k i h; exact absurd h (by simp [findGreaterIdx])
  | cons a t ih =>
    intro k i h
    unfold findGreaterIdx at h
    by_cases hp : CostV.lt (key x) (key a) = true
    · rw [if_pos hp] at h
      obtain rfl : k = i := by simpa using h
      simp
    · rw [if_neg hp] at h
      obtain ⟨h1, h2⟩ := ih (k + 1) i h
      refine ⟨by omega, ?_⟩
      simp only [List.length_cons]
      omega

lemma pyInsert_nonneg {α : Type} (l : List α) (i : Nat) (x : α) (h : i ≤ l.length) :
    pyInsert l (i : Int) x = l.take i ++ x :: l.drop i := by
  simp only [pyInsert]
  rw [if_neg (by omega)]
  have hpos : (min (i : Int) (l.length : Int)).toNat = i := by omega
  rw [hpos]

lemma pyInsert_neg_one {α : Type} (l : List α) (x : α) :
    pyInsert l (-1) x = l.take (l.length - 1) ++ x :: l.drop (l.length - 1) := by
  simp only [pyInsert]
  rw [if_pos (by omega)]
  have hpos : (max ((l.length : Int) + -1) 0).toNat = l.length - 1 := by omega
  rw [hpos]

lemma lmpFindIdx_eq (g : Graph) (x : NodeId) :
    ∀ (so : List NodeId) (k : Nat), hasKeys g so →
      lmpFindIdx g (keyOf g x) so k =
        .ok (match findGreaterIdx (keyOf g) x so k with
             | some i => (i : Int)
             | none => -1) := by
  intro so
  induction so with
  | nil => intro k _; rfl
  | cons cn rest ih =>
    intro k hk
    obtain ⟨dm, hdm⟩ := Option.isSome_iff_exists.mp (hk cn (by simp))
    have hkey : minDirCost dm = keyOf g cn := by
      unfold keyOf
      rw [hdm]
      rfl
    have hdl : dlook (NodeId.Start, cn, (none : Option Dir)) g = Except.ok dm := by
      simp [dlook, hdm]
    unfold lmpFindIdx findGreaterIdx
    rw [hdl, ok_bind, hkey]
    by_cases hlt : CostV.lt (keyOf g x) (keyOf g cn) = true
    · rw [if_pos hlt, if_pos hlt]
      rfl
    · rw [if_neg hlt, if_neg hlt]
      exact ih (k + 1) (fun y hy => hk y (by simp [hy]))

lemma mem_takeDrop_insert {α : Type} {y x : α} {l : List α} {p : Nat}
    (h : y ∈ l.take p ++ x :: l.drop p) : y = x ∨ y ∈ l := by
  rcases List.mem_append.mp h with h1 | h1
  · exact Or.inr (List.mem_of_mem_take h1)
  · rcases List.mem_cons.mp h1 with h2 | h2
    · exact Or.inl h2
    · exact Or.inr (List.mem_of_mem_drop h2)

lemma hasKeys_insertSpec {g : Graph} {x : NodeId} {so : List NodeId}
    (hx : (alookup (NodeId.Start, x, (none : Option Dir)) g).isSome = true)
    (hso : hasKeys g so) : hasKeys g (lmpInsertSpec (keyOf g) x so) := by
  intro y hy
  unfold lmpInsertSpec at hy
  rcases hfi : findGreaterIdx (keyOf g) x so 0 with _ | i <;>
    rw [hfi] at hy <;>
    rcases mem_takeDrop_insert hy with rfl | hmem
  · exact hx
  · exact hso y hmem
  · exact hx
  · exact hso y hmem

lemma lmpSortGo_eq (g : Graph) :
    ∀ (order so : List NodeId), hasKeys g (lmpItems order) → hasKeys g so →
      lmpSortGo g order so =
        .ok ((lmpItems order).foldl (fun acc pid => lmpInsertSpec (keyOf g) pid acc) so) := by
  intro order
  induction order with
  | nil => intro so _ _; simp [lmpSortGo, lmpItems]
  | cons pid rest ih =>
    intro so hk hso
    match pid with
    | .Start =>
      have hitems : lmpItems (NodeId.Start :: rest) = lmpItems rest := by
        simp [lmpItems, List.takeWhile_cons]
      rw [hitems] at hk
      show lmpSortGo g rest so = _
      rw [hitems]
      exact ih so hk hso
    | .End =>
      have hitems : lmpItems (NodeId.End :: rest) = [] := by
        simp [lmpItems, List.takeWhile_cons]
      rw [hitems]
      rfl
    | .item n =>
      have hitems : lmpItems (NodeId.item n :: rest) = NodeId.item n :: lmpItems rest := by
        simp [lmpItems, List.takeWhile_cons]
      rw [hitems] at hk ⊢
      have hx := hk (NodeId.item n) (by simp)
      obtain ⟨dm, hdm⟩ := Option.isSome_iff_exists.mp hx
      have hkey : minDirCost dm = keyOf g (NodeId.item n) := by
        unfold keyOf
        rw [hdm]
        rfl
      have hdl : dlook (NodeId.Start, NodeId.item n, (none : Option Dir)) g
          = Except.ok dm := by
        simp [dlook, hdm]
      have hkrest : hasKeys g (lmpItems rest) := fun y hy => hk y (by simp [hy])
      show (dlook (NodeId.Start, NodeId.item n, (none : Option Dir)) g >>= _) = _
      rw [hdl, ok_bind]
      by_cases hlen : so.length = 0
      · rw [if_pos hlen]
        obtain rfl : so = [] := List.length_eq_zero.mp hlen
        rw [List.nil_append,
          ih [NodeId.item n] hkrest (by intro y hy; simp at hy; subst hy; exact hx)]
        simp only [List.foldl_cons]
        rfl
      · rw [if_neg hlen]
        rw [show (do
            let idx ← lmpFindIdx g (minDirCost dm) so 0
            lmpSortGo g rest (pyInsert so idx (NodeId.item n)))
          = (lmpFindIdx g (minDirCost dm) so 0 >>=
              fun idx => lmpSortGo g rest (pyInsert so idx (NodeId.item n))) from rfl]
        rw [hkey, lmpFindIdx_eq g (NodeId.item n) so 0 hso, ok_bind]
        have hins : pyInsert so
            (match findGreaterIdx (keyOf g) (NodeId.item n) so 0 with
             | some i => (i : Int)
             | none => -1) (NodeId.item n)
            = lmpInsertSpec (keyOf g) (NodeId.item n) so := by
          unfold lmpInsertSpec
          rcases hfi : findGreaterIdx (keyOf g) (NodeId.item n) so 0 with _ | i
          · exact pyInsert_neg_one so _
          · have hb := findGreaterIdx_bounds _ _ so 0 i hfi
            exact pyInsert_nonneg so i _ (by omega)
        rw [hins]
        rw [ih (lmpInsertSpec (keyOf g) (NodeId.item n) so) hkrest
          (hasKeys_insertSpec hx hso)]
        simp only [List.foldl_cons]

/-- **C8 (amended).** The visiting order `localized_min_path` threads
through is `Start`, then the order's items arranged by the actual
insertion procedure — each item is inserted before the first
already-placed item with a strictly greater minimum-cost key, and, when no
such item exists, immediately *before the last* already-placed item
(Python `insert(-1, ...)`) — then `End`.  This differs from a stable
ascending sort (see the counterexample). -/
theorem lmp_sorted_order_refines (g : Graph) (order : List NodeId)
    (h : hasKeys g (lmpItems order)) :
    lmp_sorted_order g order = .ok (lmp_sorted_order_spec g order) := by
  unfold lmp_sorted_order lmp_sorted_order_spec
  rw [lmpSortGo_eq g order [] h (by intro y hy; simp at hy)]
  rfl

/-- Witness for C8 (amended) at the concrete graph `G3` and order
`[Start, A, B, C, End]`. -/
theorem lmp_sorted_order_refines_witness :
    hasKeys G3 (lmpItems orderABC) ∧
    lmp_sorted_order G3 orderABC = .ok (lmp_sorted_order_spec G3 orderABC) := by
  have h : hasKeys G3 (lmpItems orderABC) := by
    intro y hy
    fin_cases hy <;> decide
  exact ⟨h, lmp_sorted_order_refines G3 orderABC h⟩

/-- **C8 (counterexample).** On `G3` (minimum costs: A=1, B=2, C=3) with
order `[Start, A, B, C, End]`, the threaded order is
`[Start, B, C, A, End]`, while the stable ascending sort of the items by
that key is `[Start, A, B, C, End]`: the two differ. -/
theorem lmp_sorted_order_not_stable_sort :
    lmp_sorted_order G3 orderABC = .ok [NodeId.Start, nB, nC, nA, NodeId.End] ∧
    NodeId.Start :: (stableSortAsc (keyOf G3) (lmpItems orderABC) ++ [NodeId.End])
      = [NodeId.Start, nA, nB, nC, NodeId.End] ∧
    ([NodeId.Start, nB, nC, nA, NodeId.End] : List NodeId)
      ≠ [NodeId.Start, nA, nB, nC, NodeId.End] := by
  decide

/-! ### Claim 3: no cost ordering among the three solvers -/

/-- **C3 (counterexample).** On the access graph `G2` with order
`[Start, A, B, End]` and no deadline (every solver runs to completion),
`nearest_neighbor` returns cost 10 while `localized_min_path` returns
cost 9: the claimed chain `bnb ≤ nn ≤ lmp` fails at its second
inequality. -/
theorem solver_ordering_counterexample :
    (nearest_neighbor G2 ord2 10).toOption.map (fun r => r.1) = some (CostV.num 10) ∧
    (localized_min_path G2 ord2).toOption.map (fun r => r.1) = some 9 ∧
    ¬ (10 : Int) ≤ 9 := by
  decide

/-- **C3 (amended).** Neither claimed inequality holds in general: on `G4`
`branch_and_bound` (multi access, the application default; start key drawn
at index 1) returns cost 10 while `nearest_neighbor` returns cost 4, and
on `G2` `nearest_neighbor` returns cost 10 while `localized_min_path`
returns cost 9 — with every run terminating (no deadline reached). -/
theorem solver_ordering_violations :
    (branch_and_bound G4 ord2 .multi 1 30).toOption.map (fun r => r.1)
      = some (CostV.num 10) ∧
    (nearest_neighbor G4 ord2 10).toOption.map (fun r => r.1) = some (CostV.num 4) ∧
    ¬ (10 : Int) ≤ 4 ∧
    (nearest_neighbor G2 ord2 10).toOption.map (fun r => r.1) = some (CostV.num 10) ∧
    (localized_min_path G2 ord2).toOption.map (fun r => r.1) = some 9 ∧
    ¬ (10 : Int) ≤ 9 := by
  decide

/-! ### Claim 5: solver purity and the branch-and-bound RNG draw -/

/-- **C5 (counterexample).** Two `branch_and_bound` invocations on the
identical `(graph, order)` (no deadline, identical fuel, the application's
default multi-access setting) that differ only in the global RNG draw
return different `(cost, tour)` pairs: the drawn start key at index 1
seeds the tour from `Start`, the one at index 5 seeds it from `B`. -/
theorem branch_and_bound_rng_counterexample :
    branch_and_bound G2 ord2 .multi 1 30
      = .ok (.num 10, [(NodeId.Start, none), (nA, some .N), (nB, some .N),
          (NodeId.End, none)]) ∧
    branch_and_bound G2 ord2 .multi 5 30
      = .ok (.num 10, [(nB, some .N), (NodeId.End, none), (NodeId.Start, none),
          (nA, some .N)]) ∧
    ([(NodeId.Start, none), (nA, some .N), (nB, some .N), (NodeId.End, none)] :
        List (NodeId × Option Dir))
      ≠ [(nB, some .N), (NodeId.End, none), (NodeId.Start, none), (nA, some .N)] := by
  decide

/-- **C5 (amended).** `nearest_neighbor` and `localized_min_path` are pure
functions of `(graph, order, deadline)`; `branch_and_bound` additionally
reads the global RNG (`random.choice` of a start key), but its result
depends on that draw only through the drawn start node: two invocations
whose draws select the same start node return identical results. -/
theorem branch_and_bound_rng_only_start (g : Graph) (order : List NodeId)
    (acc : BnbAccess) (fuel r1 r2 : Nat)
    (h : chosenStartNode g r1 = chosenStartNode g r2) :
    branch_and_bound g order acc r1 fuel = branch_and_bound g order acc r2 fuel := by
  unfold branch_and_bound
  rw [h]

/-- Witness for C5 (amended): draws 1 and 8 select the same start key of
the 7-key graph `G2`, and the two runs coincide. -/
theorem branch_and_bound_rng_only_start_witness :
    chosenStartNode G2 1 = chosenStartNode G2 8 ∧
    branch_and_bound G2 ord2 .multi 1 30 = branch_and_bound G2 ord2 .multi 8 30 :=
  ⟨by decide, branch_and_bound_rng_only_start G2 ord2 .multi 30 1 8 (by decide)⟩

/-! ### Claim 6: the fully walled-in item -/

/-- **C6.** For the 3×3 grid whose item `A` at `(0,0)` has all four
approach cells blocked or out of bounds, `build_graph_for_order` produces
a graph whose only edge is the synthetic `(End, Start, None)` edge — in
particular no edge into `A` — but the solvers do *not* all return a
degraded answer: `localized_min_path` raises KeyError looking up
`('Start', A, None)`, and `nearest_neighbor` raises TypeError subscripting
the `None` it appended when no candidate edge existed; only
`branch_and_bound` terminates normally, returning `(inf, [])`. -/
theorem walled_in_item_behaviour :
    build_graph_for_order 3 3 blocked6 prods6 (2, 2) (2, 2) ord6 50 = .ok G6 ∧
    (∀ kv ∈ G6, kv.1.2.1 ≠ nA) ∧
    localized_min_path G6 ord6 = .error .keyError ∧
    nearest_neighbor G6 ord6 10 = .error .typeError ∧
    branch_and_bound G6 ord6 .multi 0 10 = .ok (.infty, []) := by
  decide

/-! ### Claim 7: the `nearest_neighbor` timeout handler -/

/-- **C7.** When the deadline elapses during `nearest_neighbor`, the
`except TimeoutError` handler evaluates `if path:`, but `path` is bound
neither in the function's local scope nor among the module globals, so the
lookup raises NameError — the handler never returns the best completed
walk nor the `(None, order)` fallback, and the exception propagates to the
caller.  This holds for every handler-entry state (any truth values of the
bound names, any `final_cost`, `final_path` and `order`). -/
theorem nn_timeout_handler_raises_nameError (truthy : String → Bool)
    (final_cost : CostV) (final_path : Option (List (Option (NodeId × Option Dir))))
    (order : List NodeId) :
    nn_timeout_handler (nearest_neighbor_local_names ++ app_module_names) truthy
      final_cost final_path order = .error .nameError := by
  unfold nn_timeout_handler
  rw [if_neg (by decide)]

/-! ### Heap lemmas for `dijkstra` -/

lemma pyRemove_mem {α : Type} [DecidableEq α] {a x : α} :
    ∀ {l : List α}, a ∈ pyRemove x l → a ∈ l := by
  intro l
  induction l with
  | nil => intro h; simpa [pyRemove] using h
  | cons y rest ih =>
    intro h
    unfold pyRemove at h
    by_cases hy : y = x
    · rw [if_pos hy] at h
      exact List.mem_cons_of_mem y h
    · rw [if_neg hy] at h
      rcases List.mem_cons.mp h with rfl | h2
      · exact List.mem_cons_self _ _
      · exact List.mem_cons_of_mem y (ih h2)

lemma pyRemove_mem_of_ne {α : Type} [DecidableEq α] {a x : α} (hne : a ≠ x) :
    ∀ {l : List α}, a ∈ l → a ∈ pyRemove x l := by
  intro l
  induction l with
  | nil => intro h; simpa using h
  | cons y rest ih =>
    intro h
    unfold pyRemove
    by_cases hy : y = x
    · rw [if_pos hy]
      rcases List.mem_cons.mp h with rfl | h2
      · exact absurd hy hne
      · exact h2
    · rw [if_neg hy]
      rcases List.mem_cons.mp h with rfl | h2
      · exact List.mem_cons_self _ _
      · exact List.mem_cons_of_mem y (ih h2)

lemma pyRemove_length {α : Type} [DecidableEq α] {x : α} :
    ∀ {l : List α}, x ∈ l → (pyRemove x l).length + 1 = l.length := by
  intro l
  induction l with
  | nil => intro h; simpa using h
  | cons y rest ih =>
    intro h
    unfold pyRemove
    by_cases hy : y = x
    · rw [if_pos hy]
      rfl
    · rw [if_neg hy]
      rcases List.mem_cons.mp h with rfl | h2
      · exact absurd rfl hy
      · simpa using ih h2

lemma entryLt_cost {a b : Nat × Pos} (h : entryLt a b = true) : a.1 ≤ b.1 := by
  unfold entryLt at h
  simp only [decide_eq_true_eq] at h
  rcases h with h | ⟨h1, _⟩
  · omega
  · omega

lemma entryLt_not_cost {a b : Nat × Pos} (h : ¬ entryLt a b = true) : b.1 ≤ a.1 := by
  by_cases hc : a.1 < b.1
  · exact absurd (by unfold entryLt; simp only [decide_eq_true_eq]; exact Or.inl hc) h
  · omega

lemma heapMin_cons_some (e : Nat × Pos) (rest : List (Nat × Pos)) :
    ∃ m, heapMin (e :: rest) = some m := by
  rcases hr : heapMin rest with _ | m
  · refine ⟨e, ?_⟩
    unfold heapMin
    rw [hr]
  · by_cases hlt : entryLt m e = true
    · refine ⟨m, ?_⟩
      unfold heapMin
      rw [hr]
      show (if entryLt m e then some m else some e) = some m
      rw [if_pos hlt]
    · refine ⟨e, ?_⟩
      unfold heapMin
      rw [hr]
      show (if entryLt m e then some m else some e) = some e
      rw [if_neg hlt]

lemma heapMin_mem : ∀ {l : List (Nat × Pos)} {m}, heapMin l = some m → m ∈ l := by
  intro l
  induction l with
  | nil => intro m h; simp [heapMin] at h
  | cons e rest ih =>
    intro m h
    rcases hr : heapMin rest with _ | m'
    · have h2 : some e = some m := by unfold heapMin at h; rw [hr] at h; exact h
      obtain rfl := Option.some.inj h2
      exact List.mem_cons_self _ _
    · have h2 : (if entryLt m' e then some m' else some e) = some m := by
        unfold heapMin at h; rw [hr] at h; exact h
      by_cases hlt : entryLt m' e = true
      · rw [if_pos hlt] at h2
        obtain rfl := Option.some.inj h2
        exact List.mem_cons_of_mem e (ih hr)
      · rw [if_neg hlt] at h2
        obtain rfl := Option.some.inj h2
        exact List.mem_cons_self _ _

lemma heapMin_le : ∀ {l : List (Nat × Pos)} {m}, heapMin l = some m →
    ∀ e ∈ l, m.1 ≤ e.1 := by
  intro l
  induction l with
  | nil => intro m h; simp [heapMin] at h
  | cons e rest ih =>
    intro m h f hf
    rcases hr : heapMin rest with _ | m'
    · have h2 : some e = some m := by unfold heapMin at h; rw [hr] at h; exact h
      obtain rfl := Option.some.inj h2
      rcases List.mem_cons.mp hf with rfl | h3
      · exact le_refl _
      · cases rest with
        | nil => simp at h3
        | cons a t =>
          obtain ⟨m2, hm2⟩ := heapMin_cons_some a t
          rw [hm2] at hr
          simp at hr
    · have h2 : (if entryLt m' e then some m' else some e) = some m := by
        unfold heapMin at h; rw [hr] at h; exact h
      by_cases hlt : entryLt m' e = true
      · rw [if_pos hlt] at h2
        obtain rfl := Option.some.inj h2
        rcases List.mem_cons.mp hf with rfl | h3
        · exact entryLt_cost hlt
        · exact ih hr f h3
      · rw [if_neg hlt] at h2
        obtain rfl := Option.some.inj h2
        rcases List.mem_cons.mp hf with rfl | h3
        · exact le_refl _
        · exact le_trans (entryLt_not_cost hlt) (ih hr f h3)

lemma popMin_none {l : List (Nat × Pos)} (h : popMin l = none) : l = [] := by
  cases l with
  | nil => rfl
  | cons e rest =>
    obtain ⟨m, hm⟩ := heapMin_cons_some e rest
    unfold popMin at h
    rw [hm] at h
    simp at h

lemma popMin_spec {l : List (Nat × Pos)} {m rest} (h : popMin l = some (m, rest)) :
    m ∈ l ∧ (∀ e ∈ l, m.1 ≤ e.1) ∧ rest = pyRemove m l := by
  unfold popMin at h
  rcases hm : heapMin l with _ | m'
  · rw [hm] at h; simp at h
  · rw [hm] at h
    have h3 := Option.some.inj h
    have he : m' = m := congrArg Prod.fst h3
    subst he
    have hr2 : pyRemove m' l = rest := congrArg Prod.snd h3
    exact ⟨heapMin_mem hm, heapMin_le hm, hr2.symm⟩

/-! ### Reconstruction lemmas -/

lemma unit_off {q p : Pos} {off : Int × Int} (hoff : off ∈ dijNeighbors)
    (hp : p = (q.1 + off.1, q.2 + off.2)) :
    (q.1 - p.1).natAbs + (q.2 - p.2).natAbs = 1 := by
  subst hp
  simp only [dijNeighbors, List.mem_cons, List.not_mem_nil, or_false] at hoff
  rcases hoff with rfl | rfl | rfl | rfl <;> simp <;> omega

lemma unitStepsB_append {q p : Pos}
    (hstep : (q.1 - p.1).natAbs + (q.2 - p.2).natAbs = 1) :
    ∀ {l : List Pos}, unitStepsB l = true → l.getLast? = some q →
      unitStepsB (l ++ [p]) = true := by
  intro l
  induction l with
  | nil => intro _ h; simp at h
  | cons a t ih =>
    intro hl hlast
    cases t with
    | nil =>
      obtain rfl : a = q := by simpa using hlast
      simp only [List.cons_append, List.nil_append]
      unfold unitStepsB
      simp [hstep]
      rfl
    | cons b t' =>
      unfold unitStepsB at hl
      obtain ⟨h1, h2⟩ := Bool.and_eq_true_iff.mp hl
      have hlast' : (b :: t').getLast? = some q := by
        rwa [List.getLast?_cons_cons] at hlast
      have := ih h2 hlast'
      simp only [List.cons_append] at this ⊢
      unfold unitStepsB
      rw [Bool.and_eq_true_iff]
      exact ⟨h1, this⟩

/-- Whatever path the reconstruction returns is the predecessor chain:
its length is one more than the stored distance of its endpoint, its steps
are unit steps, it starts at `start` and ends at `p`, and every element
has a stored distance. -/
lemma recon_spec {start : Pos} {st : DijState} (hc : ChainInv start st) :
    ∀ (f : Nat) (p : Pos) (path : List Pos),
      dijReconstruct st.prev start f p = .ok path →
      ∃ d, st.dist p = some d ∧ path.length = d + 1 ∧ unitStepsB path = true ∧
        path.head? = some start ∧ path.getLast? = some p ∧
        ∀ e ∈ path, ∃ de, st.dist e = some de := by
  intro f
  induction f with
  | zero => intro p path h; simp [dijReconstruct] at h
  | succ f ih =>
    intro p path h
    unfold dijReconstruct at h
    by_cases hp : p = start
    · rw [if_pos hp] at h
      obtain rfl : [start] = path := by simpa using h
      subst hp
      exact ⟨0, hc.distStart, by simp, by simp [unitStepsB], by simp, by simp,
        by intro e he; simp at he; subst he; exact ⟨0, hc.distStart⟩⟩
    · rw [if_neg hp] at h
      rcases hprev : st.prev p with _ | q
      · have h2 : (Except.error PyErr.keyError : Except PyErr (List Pos)) = .ok path := by
          rw [hprev] at h; exact h
        simp at h2
      · have h2 : (dijReconstruct st.prev start f q >>= fun pa => pure (pa ++ [p])) =
            Except.ok path := by
          rw [hprev] at h; exact h
        rcases hrec : dijReconstruct st.prev start f q with e | path'
        · rw [hrec] at h2
          have h3 : (Except.error e : Except PyErr (List Pos)) = .ok path := h2
          simp at h3
        · rw [hrec, ok_bind] at h2
          have hpath : path = path' ++ [p] := by
            simpa [pure, Except.pure] using h2.symm
          obtain ⟨⟨dq, hdq, hdp⟩, ⟨off, hoff, hpoff⟩⟩ := hc.prevStep p q hprev
          obtain ⟨dq', hdq', hlen, hunit, hhead, hlast, hall⟩ := ih q path' hrec
          have heq : dq' = dq := by
            rw [hdq] at hdq'
            exact (Option.some.inj hdq').symm
          rw [heq] at hlen
          refine ⟨dq + 1, hdp, ?_, ?_, ?_, ?_, ?_⟩
          · simp [hpath, hlen]
          · rw [hpath]
            exact unitStepsB_append (unit_off hoff hpoff) hunit hlast
          · rw [hpath]
            cases path' with
            | nil => simp at hlen
            | cons a t => simpa using hhead
          · rw [hpath]
            exact List.getLast?_concat _
          · intro e he
            rw [hpath] at he
            rcases List.mem_append.mp he with h1 | h2
            · exact hall e h1
            · obtain rfl : e = p := by simpa using h2
              exact ⟨dq + 1, hdp⟩

/-! ### Relaxation lemmas -/

lemma dijRelax_cases (mx my : Int) (blocked : Int → Int → Bool) (c : Nat)
    (pos : Pos) (st : DijState) (off : Int × Int) :
    (¬ openP mx my blocked (pos.1 + off.1, pos.2 + off.2) ∧
      dijRelax mx my blocked c pos st off = st) ∨
    (openP mx my blocked (pos.1 + off.1, pos.2 + off.2) ∧
      ((∃ dc, st.dist (pos.1 + off.1, pos.2 + off.2) = some dc ∧ ¬ c + 1 < dc ∧
        dijRelax mx my blocked c pos st off = st) ∨
       ((st.dist (pos.1 + off.1, pos.2 + off.2) = none ∨
         ∃ dc, st.dist (pos.1 + off.1, pos.2 + off.2) = some dc ∧ c + 1 < dc) ∧
        dijRelax mx my blocked c pos st off =
          { dist := fun p => if p = (pos.1 + off.1, pos.2 + off.2) then some (c + 1)
              else st.dist p,
            pq := st.pq ++ [(c + 1, (pos.1 + off.1, pos.2 + off.2))],
            prev := fun p => if p = (pos.1 + off.1, pos.2 + off.2) then some pos
              else st.prev p }))) := by
  by_cases hb : 0 ≤ pos.1 + off.1 ∧ pos.1 + off.1 < mx ∧
      0 ≤ pos.2 + off.2 ∧ pos.2 + off.2 < my
  · by_cases hblk : blocked (pos.1 + off.1) (pos.2 + off.2) = true
    · left
      constructor
      · intro hopen
        rw [hopen.2] at hblk
        exact absurd hblk (by simp)
      · simp only [dijRelax]
        rw [if_neg (not_not_intro hb), if_pos hblk]
    · have hopen : openP mx my blocked (pos.1 + off.1, pos.2 + off.2) :=
        ⟨hb, by simpa using hblk⟩
      refine Or.inr ⟨hopen, ?_⟩
      rcases hd : st.dist (pos.1 + off.1, pos.2 + off.2) with _ | dc
      · refine Or.inr ⟨Or.inl rfl, ?_⟩
        simp only [dijRelax]
        rw [if_neg (not_not_intro hb), if_neg hblk, hd]
        rfl
      · by_cases hlt : c + 1 < dc
        · refine Or.inr ⟨Or.inr ⟨dc, rfl, hlt⟩, ?_⟩
          simp only [dijRelax]
          rw [if_neg (not_not_intro hb), if_neg hblk, hd]
          simp [hlt]
        · refine Or.inl ⟨dc, rfl, hlt, ?_⟩
          simp only [dijRelax]
          rw [if_neg (not_not_intro hb), if_neg hblk, hd]
          simp [hlt]
  · left
    constructor
    · intro hopen
      exact absurd hopen.1 hb
    · simp only [dijRelax]
      rw [if_pos hb]

lemma offs_ne_zero {off : Int × Int} (hoff : off ∈ dijNeighbors) :
    off.1 ≠ 0 ∨ off.2 ≠ 0 := by
  simp only [dijNeighbors, List.mem_cons, List.not_mem_nil, or_false] at hoff
  rcases hoff with rfl | rfl | rfl | rfl <;> simp

lemma dijRelax_relaxInv {mx my : Int} {blocked : Int → Int → Bool} {start : Pos}
    {st : DijState} {S : Pos → Prop} {pos : Pos} {c : Nat} {off : Int × Int}
    (hoff : off ∈ dijNeighbors)
    (hinv : RelaxInv mx my blocked start st S pos c) :
    RelaxInv mx my blocked start (dijRelax mx my blocked c pos st off) S pos c ∧
    (∀ p d, st.dist p = some d →
      ∃ d2, (dijRelax mx my blocked c pos st off).dist p = some d2 ∧ d2 ≤ d) ∧
    (∀ p d2, (dijRelax mx my blocked c pos st off).dist p = some d2 →
      st.dist p = some d2 ∨
      (openP mx my blocked p ∧ p = (pos.1 + off.1, pos.2 + off.2) ∧ d2 = c + 1)) ∧
    (openP mx my blocked (pos.1 + off.1, pos.2 + off.2) →
      ∃ dq, (dijRelax mx my blocked c pos st off).dist
          (pos.1 + off.1, pos.2 + off.2) = some dq ∧ dq ≤ c + 1) := by
  rcases dijRelax_cases mx my blocked c pos st off with ⟨hcl, heq⟩ | ⟨hopen, hrest⟩
  · rw [heq]
    refine ⟨hinv, fun p d hd => ⟨d, hd, le_refl d⟩, fun p d2 hd2 => Or.inl hd2,
      fun hopen => absurd hopen hcl⟩
  · rcases hrest with ⟨dc, hdc, hnlt, heq⟩ | ⟨hup, heq⟩
    · rw [heq]
      exact ⟨hinv, fun p d hd => ⟨d, hd, le_refl d⟩, fun p d2 hd2 => Or.inl hd2,
        fun _ => ⟨dc, hdc, by omega⟩⟩
    · -- the update case: `q := pos + off` gets distance `c + 1`, heap entry
      -- `(c + 1, q)` and predecessor `pos`
      have hqpos : (pos.1 + off.1, pos.2 + off.2) ≠ pos := by
        rcases offs_ne_zero hoff with h1 | h1
        · intro hq
          have := congrArg Prod.fst hq
          simp at this
          omega
        · intro hq
          have := congrArg Prod.snd hq
          simp at this
          omega
      have hqS : ¬ S (pos.1 + off.1, pos.2 + off.2) := by
        intro hS
        obtain ⟨d, hd, hdc2, _⟩ := hinv.settledOld _ hS
        rcases hup with hnone | ⟨dc, hdc, hlt⟩
        · rw [hd] at hnone; exact absurd hnone (by simp)
        · rw [hd] at hdc
          obtain rfl := Option.some.inj hdc
          omega
      have hqstart : (pos.1 + off.1, pos.2 + off.2) ≠ start := by
        intro hq
        rcases hup with hnone | ⟨dc, hdc, hlt⟩
        · rw [hq, hinv.distStart] at hnone; exact absurd hnone (by simp)
        · rw [hq, hinv.distStart] at hdc
          obtain rfl := Option.some.inj hdc
          omega
      have hdistE : ∀ p, (dijRelax mx my blocked c pos st off).dist p =
          if p = (pos.1 + off.1, pos.2 + off.2) then some (c + 1) else st.dist p := by
        intro p
        rw [heq]
      have hpqE : (dijRelax mx my blocked c pos st off).pq =
          st.pq ++ [(c + 1, (pos.1 + off.1, pos.2 + off.2))] := by
        rw [heq]
      have hprevE : ∀ p, (dijRelax mx my blocked c pos st off).prev p =
          if p = (pos.1 + off.1, pos.2 + off.2) then some pos else st.prev p := by
        intro p
        rw [heq]
      refine ⟨?_, ?_, ?_, ?_⟩
      · refine ⟨?_, ?_, ?_, ?_, ?_, ?_, ?_, ?_, ?_, ?_⟩
        · rw [hdistE, if_neg (fun h => hqstart h.symm), hinv.distStart]
        · intro p d hd hd0
          rw [hdistE] at hd
          by_cases hp : p = (pos.1 + off.1, pos.2 + off.2)
          · rw [if_pos hp] at hd
            obtain rfl := Option.some.inj hd
            omega
          · rw [if_neg hp] at hd
            exact hinv.zeroOnlyStart p d hd hd0
        · intro p d hd
          rw [hdistE] at hd
          by_cases hp : p = (pos.1 + off.1, pos.2 + off.2)
          · exact Or.inr (hp ▸ hopen)
          · rw [if_neg hp] at hd
            exact hinv.distOpen p d hd
        · intro ce p hmem
          rw [hpqE] at hmem
          rcases List.mem_append.mp hmem with hold | hnew
          · obtain ⟨d, hd, hdce, hcce⟩ := hinv.pqDist ce p hold
            by_cases hp : p = (pos.1 + off.1, pos.2 + off.2)
            · refine ⟨c + 1, by rw [hdistE, if_pos hp], ?_, hcce⟩
              subst hp
              rcases hup with hnone | ⟨dc, hdc, hlt⟩
              · rw [hd] at hnone; exact absurd hnone (by simp)
              · rw [hd] at hdc
                obtain rfl := Option.some.inj hdc
                omega
            · exact ⟨d, by rw [hdistE, if_neg hp]; exact hd, hdce, hcce⟩
          · obtain ⟨rfl, rfl⟩ : ce = c + 1 ∧ p = (pos.1 + off.1, pos.2 + off.2) := by
              have h2 : (ce, p) = (c + 1, (pos.1 + off.1, pos.2 + off.2)) := by
                simpa using hnew
              exact ⟨congrArg Prod.fst h2, congrArg Prod.snd h2⟩
            exact ⟨c + 1, by rw [hdistE, if_pos rfl], le_refl _, by omega⟩
        · intro p d hnp hd
          rw [hdistE] at hd
          rw [hpqE]
          by_cases hp : p = (pos.1 + off.1, pos.2 + off.2)
          · rw [if_pos hp] at hd
            obtain rfl := Option.some.inj hd
            subst hp
            exact List.mem_append.mpr (Or.inr (by simp))
          · rw [if_neg hp] at hd
            exact List.mem_append.mpr (Or.inl (hinv.unsettledEntry p d hnp hd))
        · intro p hS
          obtain ⟨d, hd, hdc2, hnb⟩ := hinv.settledOld p hS
          have hp : p ≠ (pos.1 + off.1, pos.2 + off.2) := fun h => hqS (h ▸ hS)
          refine ⟨d, by rw [hdistE, if_neg hp]; exact hd, hdc2, ?_⟩
          intro off2 hoff2 hopen2
          obtain ⟨dq, hdq, hdqd⟩ := hnb off2 hoff2 hopen2
          by_cases hq2 : (p.1 + off2.1, p.2 + off2.2) = (pos.1 + off.1, pos.2 + off.2)
          · refine ⟨c + 1, by rw [hdistE, if_pos hq2], ?_⟩
            rcases hup with hnone | ⟨dc, hdc, hlt⟩
            · rw [hq2] at hdq
              rw [hdq] at hnone
              exact absurd hnone (by simp)
            · rw [hq2] at hdq
              rw [hdq] at hdc
              obtain rfl := Option.some.inj hdc
              omega
          · exact ⟨dq, by rw [hdistE, if_neg hq2]; exact hdq, hdqd⟩
        · rw [hdistE, if_neg (fun h => hqpos h.symm)]
          exact hinv.posDist
        · intro p q hprev
          rw [hprevE] at hprev
          by_cases hp : p = (pos.1 + off.1, pos.2 + off.2)
          · rw [if_pos hp] at hprev
            obtain rfl := Option.some.inj hprev
            refine ⟨Or.inr rfl, hp ▸ hopen, ⟨c, ?_, ?_⟩, off, hoff, hp⟩
            · rw [hdistE, if_neg (fun h => hqpos h.symm)]
              exact hinv.posDist
            · rw [hdistE, if_pos hp]
          · rw [if_neg hp] at hprev
            obtain ⟨hq, hop, ⟨dq, hdq, hdp⟩, hoffs⟩ := hinv.prevOk p q hprev
            have hqne : q ≠ (pos.1 + off.1, pos.2 + off.2) := by
              rcases hq with hqS2 | rfl
              · exact fun h => hqS (h ▸ hqS2)
              · exact fun h => hqpos h.symm
            exact ⟨hq, hop, ⟨dq, by rw [hdistE, if_neg hqne]; exact hdq,
              by rw [hdistE, if_neg hp]; exact hdp⟩, hoffs⟩
        · intro p d hd hpstart
          rw [hdistE] at hd
          by_cases hp : p = (pos.1 + off.1, pos.2 + off.2)
          · exact ⟨pos, by rw [hprevE, if_pos hp]⟩
          · rw [if_neg hp] at hd
            obtain ⟨q, hq⟩ := hinv.distPrev p d hd hpstart
            exact ⟨q, by rw [hprevE, if_neg hp]; exact hq⟩
        · exact hinv.startIn
      · intro p d hd
        by_cases hp : p = (pos.1 + off.1, pos.2 + off.2)
        · refine ⟨c + 1, by rw [hdistE, if_pos hp], ?_⟩
          subst hp
          rcases hup with hnone | ⟨dc, hdc, hlt⟩
          · rw [hd] at hnone; exact absurd hnone (by simp)
          · rw [hd] at hdc
            obtain rfl := Option.some.inj hdc
            omega
        · exact ⟨d, by rw [hdistE, if_neg hp]; exact hd, le_refl d⟩
      · intro p d2 hd2
        rw [hdistE] at hd2
        by_cases hp : p = (pos.1 + off.1, pos.2 + off.2)
        · rw [if_pos hp] at hd2
          obtain rfl := Option.some.inj hd2
          exact Or.inr ⟨hp ▸ hopen, hp, rfl⟩
        · rw [if_neg hp] at hd2
          exact Or.inl hd2
      · intro _
        exact ⟨c + 1, by rw [hdistE, if_pos rfl], le_refl _⟩

lemma foldl_fix {α β : Type} {f : α → β → α} {st : α} :
    ∀ {l : List β}, (∀ x ∈ l, f st x = st) → l.foldl f st = st := by
  intro l
  induction l with
  | nil => intro _; rfl
  | cons x t ih =>
    intro h
    rw [List.foldl_cons, h x (List.mem_cons_self _ _)]
    exact ih (fun y hy => h y (List.mem_cons_of_mem x hy))

lemma dijRelax_fold {mx my : Int} {blocked : Int → Int → Bool} {start : Pos}
    {S : Pos → Prop} {pos : Pos} {c : Nat} :
    ∀ (offs : List (Int × Int)), (∀ off ∈ offs, off ∈ dijNeighbors) →
    ∀ st : DijState, RelaxInv mx my blocked start st S pos c →
    RelaxInv mx my blocked start (offs.foldl (dijRelax mx my blocked c pos) st) S pos c ∧
    (∀ p d, st.dist p = some d →
      ∃ d2, (offs.foldl (dijRelax mx my blocked c pos) st).dist p = some d2 ∧ d2 ≤ d) ∧
    (∀ p d2, (offs.foldl (dijRelax mx my blocked c pos) st).dist p = some d2 →
      st.dist p = some d2 ∨ (openP mx my blocked p ∧
        (∃ off ∈ offs, p = (pos.1 + off.1, pos.2 + off.2)) ∧ d2 = c + 1)) ∧
    (∀ off ∈ offs, openP mx my blocked (pos.1 + off.1, pos.2 + off.2) →
      ∃ dq, (offs.foldl (dijRelax mx my blocked c pos) st).dist
        (pos.1 + off.1, pos.2 + off.2) = some dq ∧ dq ≤ c + 1) := by
  intro offs
  induction offs with
  | nil =>
    intro _ st hinv
    exact ⟨hinv, fun p d hd => ⟨d, hd, le_refl d⟩, fun p d2 h => Or.inl h,
      fun off h => absurd h (List.not_mem_nil off)⟩
  | cons o os ih =>
    intro hsub st hinv
    obtain ⟨hinv1, hmono1, hchar1, hcl1⟩ :=
      dijRelax_relaxInv (hsub o (List.mem_cons_self _ _)) hinv
    obtain ⟨hinvF, hmonoF, hcharF, hclF⟩ :=
      ih (fun x hx => hsub x (List.mem_cons_of_mem o hx)) _ hinv1
    rw [List.foldl_cons]
    refine ⟨hinvF, ?_, ?_, ?_⟩
    · intro p d hd
      obtain ⟨d1, hd1, hle1⟩ := hmono1 p d hd
      obtain ⟨d2, hd2, hle2⟩ := hmonoF p d1 hd1
      exact ⟨d2, hd2, le_trans hle2 hle1⟩
    · intro p d2 hd2
      rcases hcharF p d2 hd2 with h1 | ⟨ho, ⟨off, hoffmem, hp⟩, hd⟩
      · rcases hchar1 p d2 h1 with h2 | ⟨ho, hp, hd⟩
        · exact Or.inl h2
        · exact Or.inr ⟨ho, ⟨o, List.mem_cons_self _ _, hp⟩, hd⟩
      · exact Or.inr ⟨ho, ⟨off, List.mem_cons_of_mem o hoffmem, hp⟩, hd⟩
    · intro off hoffmem hopen
      rcases List.mem_cons.mp hoffmem with rfl | hos
      · obtain ⟨dq, hdq, hle⟩ := hcl1 hopen
        obtain ⟨dq2, hdq2, hle2⟩ := hmonoF _ dq hdq
        exact ⟨dq2, hdq2, le_trans hle2 hle⟩
      · exact hclF off hos hopen

/-! ### The two loop step lemmas: settling pop and stale pop -/

lemma settle_relaxInv {mx my : Int} {blocked : Int → Int → Bool} {start : Pos}
    {st : DijState} {S : Pos → Prop} {lp c : Nat} {pos : Pos}
    {rest : List (Nat × Pos)}
    (hinv : DijInv mx my blocked start st S lp)
    (hpop : popMin st.pq = some ((c, pos), rest)) (hpos : ¬ S pos) :
    RelaxInv mx my blocked start { st with pq := rest } S pos c ∧
    st.dist pos = some c := by
  obtain ⟨hmem, hle, hrest⟩ := popMin_spec hpop
  obtain ⟨dpos, hdpos, hdc, hlpc⟩ := hinv.pqDist c pos hmem
  have hin := hinv.unsettledEntry pos dpos hpos hdpos
  have h2 : c ≤ dpos := hle (dpos, pos) hin
  have hdceq : dpos = c := by omega
  have hdposc : st.dist pos = some c := hdceq ▸ hdpos
  refine ⟨⟨hinv.distStart, hinv.zeroOnlyStart, hinv.distOpen, ?_, ?_, ?_, hdposc, ?_,
    hinv.distPrev, ?_⟩, hdposc⟩
  · intro ce p hmemr
    rw [hrest] at hmemr
    have hmem2 := pyRemove_mem hmemr
    obtain ⟨d, hd, hdce, _⟩ := hinv.pqDist ce p hmem2
    exact ⟨d, hd, hdce, hle (ce, p) hmem2⟩
  · intro p d hnp hd
    have hnS : ¬ S p := fun h => hnp (Or.inl h)
    have hne : p ≠ pos := fun h => hnp (Or.inr h)
    have hin2 := hinv.unsettledEntry p d hnS hd
    show (d, p) ∈ rest
    rw [hrest]
    exact pyRemove_mem_of_ne (fun h => hne (congrArg Prod.snd h)) hin2
  · intro p hS
    obtain ⟨d, hd, hdlp, hnb⟩ := hinv.settled p hS
    exact ⟨d, hd, le_trans hdlp hlpc, hnb⟩
  · intro p q hprev
    obtain ⟨hq, hop, hdists, hoffs⟩ := hinv.prevOk p q hprev
    exact ⟨Or.inl hq, hop, hdists, hoffs⟩
  · rcases hinv.startTracked with hS | ⟨hin0, _⟩
    · exact Or.inl hS
    · have h0 : c ≤ 0 := hle (0, start) hin0
      exact Or.inr (hinv.zeroOnlyStart pos c hdposc (by omega))

lemma dijStep_settle {mx my : Int} {blocked : Int → Int → Bool} {start : Pos}
    {st : DijState} {S : Pos → Prop} {lp c : Nat} {pos : Pos}
    {rest : List (Nat × Pos)}
    (hinv : DijInv mx my blocked start st S lp)
    (hpop : popMin st.pq = some ((c, pos), rest)) (hpos : ¬ S pos) :
    DijInv mx my blocked start
      (dijNeighbors.foldl (dijRelax mx my blocked c pos) { st with pq := rest })
      (fun p => S p ∨ p = pos) c ∧
    st.dist pos = some c ∧
    (dijNeighbors.foldl (dijRelax mx my blocked c pos) { st with pq := rest }).dist
      pos = some c ∧
    (∀ p d, st.dist p = some d → ∃ d2,
      (dijNeighbors.foldl (dijRelax mx my blocked c pos)
        { st with pq := rest }).dist p = some d2 ∧ d2 ≤ d) ∧
    (∀ p d2, (dijNeighbors.foldl (dijRelax mx my blocked c pos)
        { st with pq := rest }).dist p = some d2 →
      st.dist p = some d2 ∨ (openP mx my blocked p ∧
        (∃ off ∈ dijNeighbors, p = (pos.1 + off.1, pos.2 + off.2)) ∧ d2 = c + 1)) := by
  obtain ⟨hri, hdpos⟩ := settle_relaxInv hinv hpop hpos
  obtain ⟨hriF, hmono, hchar, hcl⟩ := dijRelax_fold dijNeighbors (fun _ h => h) _ hri
  refine ⟨⟨hriF.distStart, hriF.zeroOnlyStart, hriF.distOpen, hriF.pqDist,
    hriF.unsettledEntry, ?_, ?_, hriF.distPrev, ?_⟩, hdpos, hriF.posDist, hmono, hchar⟩
  · intro p hp
    rcases hp with hS | rfl
    · exact hriF.settledOld p hS
    · refine ⟨c, hriF.posDist, le_refl _, ?_⟩
      intro off hoff hopen
      exact hcl off hoff hopen
  · intro p q h
    obtain ⟨hq, hop, hdists, hoffs⟩ := hriF.prevOk p q h
    exact ⟨hq, hop, hdists, hoffs⟩
  · rcases hriF.startIn with h | h
    · exact Or.inl (Or.inl h)
    · exact Or.inl (Or.inr h.symm)

lemma dijStep_stale {mx my : Int} {blocked : Int → Int → Bool} {start : Pos}
    {st : DijState} {S : Pos → Prop} {lp c : Nat} {pos : Pos}
    {rest : List (Nat × Pos)}
    (hinv : DijInv mx my blocked start st S lp)
    (hpop : popMin st.pq = some ((c, pos), rest)) (hpos : S pos) :
    dijNeighbors.foldl (dijRelax mx my blocked c pos) { st with pq := rest } =
      { st with pq := rest } ∧
    DijInv mx my blocked start { st with pq := rest } S c := by
  obtain ⟨hmem, hle, hrest⟩ := popMin_spec hpop
  obtain ⟨dpos', hdpos', hd'c, hlpc⟩ := hinv.pqDist c pos hmem
  obtain ⟨dpos, hdpos, hdlp, hnb⟩ := hinv.settled pos hpos
  constructor
  · apply foldl_fix
    intro off hoff
    rcases dijRelax_cases mx my blocked c pos { st with pq := rest } off with
      ⟨_, heq⟩ | ⟨hopen, hcases⟩
    · exact heq
    · rcases hcases with ⟨dc, hdc, hnlt, heq⟩ | ⟨hup, heq⟩
      · exact heq
      · exfalso
        obtain ⟨dq, hdq, hdqle⟩ := hnb off hoff hopen
        rcases hup with hnone | ⟨dc, hdc, hlt⟩
        · have : st.dist (pos.1 + off.1, pos.2 + off.2) = none := hnone
          rw [hdq] at this
          exact absurd this (by simp)
        · have : st.dist (pos.1 + off.1, pos.2 + off.2) = some dc := hdc
          rw [hdq] at this
          obtain rfl := Option.some.inj this
          omega
  · refine ⟨hinv.distStart, hinv.zeroOnlyStart, hinv.distOpen, ?_, ?_, ?_, ?_,
      hinv.distPrev, ?_⟩
    · intro ce p hmemr
      rw [hrest] at hmemr
      have hmem2 := pyRemove_mem hmemr
      obtain ⟨d, hd, hdce, _⟩ := hinv.pqDist ce p hmem2
      exact ⟨d, hd, hdce, hle (ce, p) hmem2⟩
    · intro p d hnp hd
      have hne : p ≠ pos := fun h => hnp (h ▸ hpos)
      have hin2 := hinv.unsettledEntry p d hnp hd
      show (d, p) ∈ rest
      rw [hrest]
      exact pyRemove_mem_of_ne (fun h => hne (congrArg Prod.snd h)) hin2
    · intro p hS
      obtain ⟨d, hd, hdlp2, hnb2⟩ := hinv.settled p hS
      exact ⟨d, hd, le_trans hdlp2 hlpc, hnb2⟩
    · intro p q hprev
      exact hinv.prevOk p q hprev
    · rcases hinv.startTracked with h | ⟨_, hnone⟩
      · exact Or.inl h
      · exact absurd hpos (hnone pos)

/-! ### The main loop specification and C10 -/

lemma chainInv_pq {start : Pos} {st : DijState} (pq2 : List (Nat × Pos))
    (h : ChainInv start st) : ChainInv start { st with pq := pq2 } :=
  ⟨h.distStart, h.zeroOnlyStart, h.prevStep, h.distPrev⟩

lemma dijInv_chain {mx my : Int} {blocked : Int → Int → Bool} {start : Pos}
    {st : DijState} {S : Pos → Prop} {lp : Nat}
    (h : DijInv mx my blocked start st S lp) : ChainInv start st :=
  ⟨h.distStart, h.zeroOnlyStart,
   fun p q hpv => ⟨(h.prevOk p q hpv).2.2.1, (h.prevOk p q hpv).2.2.2⟩,
   h.distPrev⟩

lemma dijInv_init (mx my : Int) (blocked : Int → Int → Bool) (start : Pos) :
    DijInv mx my blocked start (dijInit start) (fun _ => False) 0 := by
  refine ⟨?_, ?_, ?_, ?_, ?_, ?_, ?_, ?_, ?_⟩
  · show (if start = start then some 0 else none) = some 0
    rw [if_pos rfl]
  · intro p d hd _
    by_cases hp : p = start
    · exact hp
    · exfalso
      have h2 : (if p = start then some 0 else (none : Option Nat)) = some d := hd
      rw [if_neg hp] at h2
      exact absurd h2 (by simp)
  · intro p d hd
    by_cases hp : p = start
    · exact Or.inl hp
    · exfalso
      have h2 : (if p = start then some 0 else (none : Option Nat)) = some d := hd
      rw [if_neg hp] at h2
      exact absurd h2 (by simp)
  · intro ce p hmem
    have h2 : (ce, p) = ((0 : Nat), start) := by simpa [dijInit] using hmem
    have h3 : ce = 0 := congrArg Prod.fst h2
    have h4 : p = start := congrArg Prod.snd h2
    subst h3
    subst h4
    refine ⟨0, ?_, le_refl _, le_refl _⟩
    show (if p = p then some 0 else none) = some 0
    rw [if_pos rfl]
  · intro p d _ hd
    by_cases hp : p = start
    · subst hp
      have h2 : (if p = p then some 0 else (none : Option Nat)) = some d := hd
      rw [if_pos rfl] at h2
      obtain rfl := Option.some.inj h2
      show ((0 : Nat), p) ∈ [((0 : Nat), p)]
      simp
    · exfalso
      have h2 : (if p = start then some 0 else (none : Option Nat)) = some d := hd
      rw [if_neg hp] at h2
      exact absurd h2 (by simp)
  · intro p hp
    exact hp.elim
  · intro p q hpv
    exfalso
    have h2 : (none : Option Pos) = some q := hpv
    exact absurd h2 (by simp)
  · intro p d hd hne
    exfalso
    by_cases hp : p = start
    · exact hne hp
    · have h2 : (if p = start then some 0 else (none : Option Nat)) = some d := hd
      rw [if_neg hp] at h2
      exact absurd h2 (by simp)
  · refine Or.inr ⟨by simp [dijInit], fun p h => h⟩

lemma dijLoopGo_succ (mx my : Int) (blocked : Int → Int → Bool) (target : Pos)
    (fuel : Nat) (st : DijState) (lastPos : Option Pos) :
    dijLoopGo mx my blocked target (fuel + 1) st lastPos =
      match popMin st.pq with
      | none => .exhausted lastPos st
      | some ((c, pos), rest) =>
        if pos = target then .reached c { st with pq := rest }
        else dijLoopGo mx my blocked target fuel
          (dijNeighbors.foldl (dijRelax mx my blocked c pos) { st with pq := rest })
          (some pos) := rfl

/-- The loop either reaches the target at its stored distance with the
chain invariant holding, or exhausts the heap with the target provably
unreached (`dist target = none`); the last-popped position always has a
stored distance. -/
lemma dijLoopGo_spec {mx my : Int} {blocked : Int → Int → Bool}
    {start target : Pos} :
    ∀ (fuel : Nat) (st : DijState) (S : Pos → Prop) (lp : Nat)
      (lastPos : Option Pos),
    DijInv mx my blocked start st S lp → ¬ S target →
    (∀ p, lastPos = some p → ∃ d, st.dist p = some d) →
    (match dijLoopGo mx my blocked target fuel st lastPos with
     | .reached c stf => ChainInv start stf ∧ stf.dist target = some c
     | .exhausted lpos stf => ChainInv start stf ∧ stf.dist target = none ∧
         (∀ p, lpos = some p → ∃ d, stf.dist p = some d)
     | .fuelOut => True) := by
  intro fuel
  induction fuel with
  | zero =>
    intro st S lp lastPos _ _ _
    show True
    trivial
  | succ fuel ih =>
    intro st S lp lastPos hinv htgt hlast
    rcases hpop : popMin st.pq with _ | ⟨⟨c, pos⟩, rest⟩
    · have hstep : dijLoopGo mx my blocked target (fuel + 1) st lastPos =
          .exhausted lastPos st := by
        rw [dijLoopGo_succ, hpop]
      rw [hstep]
      show ChainInv start st ∧ st.dist target = none ∧
        (∀ p, lastPos = some p → ∃ d, st.dist p = some d)
      refine ⟨dijInv_chain hinv, ?_, hlast⟩
      rcases hd : st.dist target with _ | d
      · rfl
      · exfalso
        have hin := hinv.unsettledEntry target d htgt hd
        rw [popMin_none hpop] at hin
        simp at hin
    · have hstep : dijLoopGo mx my blocked target (fuel + 1) st lastPos =
          if pos = target then .reached c { st with pq := rest }
          else dijLoopGo mx my blocked target fuel
            (dijNeighbors.foldl (dijRelax mx my blocked c pos) { st with pq := rest })
            (some pos) := by
        rw [dijLoopGo_succ, hpop]
      rw [hstep]
      by_cases htp : pos = target
      · rw [if_pos htp]
        subst htp
        show ChainInv start { st with pq := rest } ∧ st.dist pos = some c
        refine ⟨chainInv_pq rest (dijInv_chain hinv), ?_⟩
        obtain ⟨hmem, hle, _⟩ := popMin_spec hpop
        obtain ⟨d, hd, hdc, _⟩ := hinv.pqDist c pos hmem
        have hin := hinv.unsettledEntry pos d htgt hd
        have h2 : c ≤ d := hle (d, pos) hin
        have h3 : d = c := by omega
        exact h3 ▸ hd
      · rw [if_neg htp]
        by_cases hS : S pos
        · obtain ⟨hid, hinv2⟩ := dijStep_stale hinv hpop hS
          rw [hid]
          have hlast2 : ∀ p, some pos = some p →
              ∃ d, ({ st with pq := rest } : DijState).dist p = some d := by
            intro p hp
            obtain rfl := Option.some.inj hp
            obtain ⟨d, hd, _, _⟩ := hinv.settled pos hS
            exact ⟨d, hd⟩
          exact ih _ S c (some pos) hinv2 htgt hlast2
        · obtain ⟨hinv2, hdpos, hdposF, hmono, hchar⟩ := dijStep_settle hinv hpop hS
          have htgt2 : ¬ (S target ∨ target = pos) := by
            rintro (h | h)
            · exact htgt h
            · exact htp h.symm
          have hlast2 : ∀ p, some pos = some p → ∃ d,
              (dijNeighbors.foldl (dijRelax mx my blocked c pos)
                { st with pq := rest }).dist p = some d := by
            intro p hp
            obtain rfl := Option.some.inj hp
            exact ⟨c, hdposF⟩
          exact ih _ _ c (some pos) hinv2 htgt2 hlast2

lemma dijkstra_eq (mx my : Int) (blocked : Int → Int → Bool) (start target : Pos)
    (fuel : Nat)
    (hb : 0 ≤ target.1 ∧ target.1 < mx ∧ 0 ≤ target.2 ∧ target.2 < my) :
    dijkstra mx my blocked start target fuel =
      match dijLoopGo mx my blocked target fuel (dijInit start) none with
      | .fuelOut => .err .outOfFuel
      | .reached c st =>
        (match dijReconstruct st.prev start fuel target with
         | .ok path => if target ∈ path then .found path c else .notFound
         | .error e => .err e)
      | .exhausted none _ => .err .nameError
      | .exhausted (some pos) st =>
        (match dijReconstruct st.prev start fuel pos with
         | .ok path => if target ∈ path then .found path 0 else .notFound
         | .error e => .err e) := by
  unfold dijkstra
  rw [if_neg (not_not_intro hb)]
  rfl

/-- **C10.** Whenever `dijkstra` returns a found result, the returned
`total_cost` equals the number of positions in the returned path minus
one, and each consecutive pair of path positions differs by exactly one
unit step in one coordinate. -/
theorem dijkstra_found_path_cost {mx my : Int} {blocked : Int → Int → Bool}
    {start target : Pos} {fuel : Nat} {path : List Pos} {cost : Nat}
    (h : dijkstra mx my blocked start target fuel = .found path cost) :
    path.length = cost + 1 ∧ unitStepsB path = true := by
  by_cases hb : 0 ≤ target.1 ∧ target.1 < mx ∧ 0 ≤ target.2 ∧ target.2 < my
  · rw [dijkstra_eq mx my blocked start target fuel hb] at h
    have hspec := @dijLoopGo_spec mx my blocked start target fuel (dijInit start)
      (fun _ => False) 0 none (dijInv_init mx my blocked start) (fun hf => hf)
      (fun p hp => absurd hp (by simp))
    rcases hloop : dijLoopGo mx my blocked target fuel (dijInit start) none with
      ⟨c, stf⟩ | ⟨lpos, stf⟩ | _
    · rw [hloop] at h hspec
      have hspec2 : ChainInv start stf ∧ stf.dist target = some c := hspec
      have h2 : (match dijReconstruct stf.prev start fuel target with
          | .ok p2 => if target ∈ p2 then DijkstraResult.found p2 c else .notFound
          | .error e => .err e) = DijkstraResult.found path cost := h
      rcases hrec : dijReconstruct stf.prev start fuel target with e2 | p2
      · rw [hrec] at h2
        exact absurd h2 (by simp)
      · rw [hrec] at h2
        have h3 : (if target ∈ p2 then DijkstraResult.found p2 c else .notFound) =
            DijkstraResult.found path cost := h2
        by_cases hmem : target ∈ p2
        · rw [if_pos hmem] at h3
          injection h3 with hA hB
          obtain ⟨d, hd, hlen, hunit, _, _, _⟩ := recon_spec hspec2.1 fuel target p2 hrec
          rw [hspec2.2] at hd
          have h4 : c = d := Option.some.inj hd
          constructor
          · rw [← hA, hlen]
            omega
          · rw [← hA]
            exact hunit
        · rw [if_neg hmem] at h3
          exact absurd h3 (by simp)
    · rw [hloop] at h hspec
      have hspec2 : ChainInv start stf ∧ stf.dist target = none ∧
          (∀ p, lpos = some p → ∃ d, stf.dist p = some d) := hspec
      rcases lpos with _ | pos
      · have h2 : DijkstraResult.err .nameError = .found path cost := h
        exact absurd h2 (by simp)
      · have h2 : (match dijReconstruct stf.prev start fuel pos with
            | .ok p2 => if target ∈ p2 then DijkstraResult.found p2 0 else .notFound
            | .error e => .err e) = DijkstraResult.found path cost := h
        rcases hrec : dijReconstruct stf.prev start fuel pos with e2 | p2
        · rw [hrec] at h2
          exact absurd h2 (by simp)
        · rw [hrec] at h2
          have h3 : (if target ∈ p2 then DijkstraResult.found p2 0 else .notFound) =
              DijkstraResult.found path cost := h2
          by_cases hmem : target ∈ p2
          · exfalso
            obtain ⟨d, hd, _, _, _, _, hall⟩ := recon_spec hspec2.1 fuel pos p2 hrec
            obtain ⟨dt, hdt⟩ := hall target hmem
            rw [hspec2.2.1] at hdt
            exact absurd hdt (by simp)
          · rw [if_neg hmem] at h3
            exact absurd h3 (by simp)
    · rw [hloop] at h
      have h2 : DijkstraResult.err .outOfFuel = .found path cost := h
      exact absurd h2 (by simp)
  · unfold dijkstra at h
    rw [if_pos hb] at h
    exact absurd h (by simp)

theorem dijkstra_found_path_cost_witness :
    dijkstra 3 3 dBlocked (0, 0) (2, 0) 40 =
      .found [(0, 0), (0, 1), (0, 2), (1, 2), (2, 2), (2, 1), (2, 0)] 6 ∧
    ([((0 : Int), (0 : Int)), (0, 1), (0, 2), (1, 2), (2, 2), (2, 1),
      (2, 0)] : List Pos).length = 6 + 1 ∧
    unitStepsB [((0 : Int), (0 : Int)), (0, 1), (0, 2), (1, 2), (2, 2), (2, 1),
      (2, 0)] = true :=
  ⟨by decide, @dijkstra_found_path_cost 3 3 dBlocked (0, 0) (2, 0) 40
    [(0, 0), (0, 1), (0, 2), (1, 2), (2, 2), (2, 1), (2, 0)] 6 (by decide)⟩

/-! ### Manhattan-distance lemmas for the obstacle-free grid (C4) -/

lemma manh_zero {s p : Pos} (h : manh s p = 0) : p = s := by
  unfold manh at h
  have h1 : p.1 = s.1 := by omega
  have h2 : p.2 = s.2 := by omega
  exact Prod.ext h1 h2

lemma stepToward_manh {s p : Pos} (hne : p ≠ s) :
    manh s (stepToward s p) + 1 = manh s p := by
  have hco : p.1 ≠ s.1 ∨ p.2 ≠ s.2 := by
    by_contra hc
    push_neg at hc
    exact hne (Prod.ext hc.1 hc.2)
  unfold stepToward manh
  by_cases h2 : p.2 ≠ s.2
  · rw [if_pos h2]
    by_cases hlt : s.2 < p.2
    · rw [if_pos hlt]
      simp only []
      omega
    · rw [if_neg hlt]
      simp only []
      omega
  · rw [if_neg h2]
    have h1 : p.1 ≠ s.1 := by tauto
    by_cases hlt : s.1 < p.1
    · rw [if_pos hlt]
      simp only []
      omega
    · rw [if_neg hlt]
      simp only []
      omega

lemma stepToward_inb {mx my : Int} {s p : Pos} (hne : p ≠ s)
    (hs : 0 ≤ s.1 ∧ s.1 < mx ∧ 0 ≤ s.2 ∧ s.2 < my)
    (hp : 0 ≤ p.1 ∧ p.1 < mx ∧ 0 ≤ p.2 ∧ p.2 < my) :
    0 ≤ (stepToward s p).1 ∧ (stepToward s p).1 < mx ∧
    0 ≤ (stepToward s p).2 ∧ (stepToward s p).2 < my := by
  unfold stepToward
  by_cases h2 : p.2 ≠ s.2
  · rw [if_pos h2]
    by_cases hlt : s.2 < p.2
    · rw [if_pos hlt]
      show 0 ≤ p.1 ∧ p.1 < mx ∧ 0 ≤ p.2 - 1 ∧ p.2 - 1 < my
      omega
    · rw [if_neg hlt]
      show 0 ≤ p.1 ∧ p.1 < mx ∧ 0 ≤ p.2 + 1 ∧ p.2 + 1 < my
      omega
  · rw [if_neg h2]
    have h2e : p.2 = s.2 := not_not.mp h2
    have h1 : p.1 ≠ s.1 := by
      intro h
      exact hne (Prod.ext h h2e)
    by_cases hlt : s.1 < p.1
    · rw [if_pos hlt]
      show 0 ≤ p.1 - 1 ∧ p.1 - 1 < mx ∧ 0 ≤ p.2 ∧ p.2 < my
      omega
    · rw [if_neg hlt]
      show 0 ≤ p.1 + 1 ∧ p.1 + 1 < mx ∧ 0 ≤ p.2 ∧ p.2 < my
      omega

lemma stepToward_off {s p : Pos} (hne : p ≠ s) :
    ∃ off ∈ dijNeighbors,
      p = ((stepToward s p).1 + off.1, (stepToward s p).2 + off.2) := by
  unfold stepToward
  by_cases h2 : p.2 ≠ s.2
  · rw [if_pos h2]
    by_cases hlt : s.2 < p.2
    · rw [if_pos hlt]
      refine ⟨(0, 1), by simp [dijNeighbors], ?_⟩
      have : p = (p.1 + 0, p.2 - 1 + 1) := by
        refine Prod.ext ?_ ?_ <;> simp <;> omega
      exact this
    · rw [if_neg hlt]
      refine ⟨(0, -1), by simp [dijNeighbors], ?_⟩
      have : p = (p.1 + 0, p.2 + 1 + -1) := by
        refine Prod.ext ?_ ?_ <;> simp <;> omega
      exact this
  · rw [if_neg h2]
    by_cases hlt : s.1 < p.1
    · rw [if_pos hlt]
      refine ⟨(1, 0), by simp [dijNeighbors], ?_⟩
      have : p = (p.1 - 1 + 1, p.2 + 0) := by
        refine Prod.ext ?_ ?_ <;> simp <;> omega
      exact this
    · rw [if_neg hlt]
      refine ⟨(-1, 0), by simp [dijNeighbors], ?_⟩
      have : p = (p.1 + 1 + -1, p.2 + 0) := by
        refine Prod.ext ?_ ?_ <;> simp <;> omega
      exact this

lemma manh_off_le {s pos : Pos} {off : Int × Int} (hoff : off ∈ dijNeighbors) :
    manh s (pos.1 + off.1, pos.2 + off.2) ≤ manh s pos + 1 := by
  simp only [dijNeighbors, List.mem_cons, List.not_mem_nil, or_false] at hoff
  unfold manh
  rcases hoff with rfl | rfl | rfl | rfl <;> simp <;> omega

/-- On an obstacle-free grid, as long as the target side of the canonical
monotone path is unsettled, some unsettled in-bounds position holds a
stored distance no larger than its own Manhattan distance (the frontier
always reaches at least as far as every unreached cell). -/
lemma manh_reach {mx my : Int} {blocked : Int → Int → Bool} {start : Pos}
    {st : DijState} {S : Pos → Prop} {lp : Nat}
    (hopen : ∀ x y, blocked x y = false)
    (hinv : DijInv mx my blocked start st S lp)
    (hM : ManhInv mx my start st S)
    (hs : 0 ≤ start.1 ∧ start.1 < mx ∧ 0 ≤ start.2 ∧ start.2 < my)
    (hSstart : S start) :
    ∀ (n : Nat) (p : Pos), manh start p = n → ¬ S p →
      (0 ≤ p.1 ∧ p.1 < mx ∧ 0 ≤ p.2 ∧ p.2 < my) →
      ∃ u du, ¬ S u ∧ st.dist u = some du ∧ du ≤ manh start u ∧
        manh start u ≤ manh start p := by
  intro n
  induction n using Nat.strong_induction_on with
  | _ n ih =>
    intro p hmanh hnp hbp
    by_cases hps : p = start
    · rw [hps] at hnp
      exact absurd hSstart hnp
    · have hstep : manh start (stepToward start p) + 1 = manh start p :=
        stepToward_manh hps
      have hinb := stepToward_inb hps hs hbp
      obtain ⟨off, hoff, hpoff⟩ := stepToward_off hps
      by_cases hSp : S (stepToward start p)
      · obtain ⟨d, hd, _, hnb⟩ := hinv.settled _ hSp
        have hdm : st.dist (stepToward start p) =
            some (manh start (stepToward start p)) := hM.exact _ hSp
        have hdeq : d = manh start (stepToward start p) := by
          rw [hd] at hdm
          exact Option.some.inj hdm
        have hopenp : openP mx my blocked
            ((stepToward start p).1 + off.1, (stepToward start p).2 + off.2) := by
          rw [← hpoff]
          exact ⟨hbp, hopen p.1 p.2⟩
        obtain ⟨dq, hdq, hdqle⟩ := hnb off hoff hopenp
        rw [← hpoff] at hdq
        refine ⟨p, dq, hnp, hdq, ?_, le_refl _⟩
        omega
      · have hlt : manh start (stepToward start p) < n := by omega
        obtain ⟨u, du, h1, h2, h3, h4⟩ := ih _ hlt (stepToward start p) rfl hSp hinb
        exact ⟨u, du, h1, h2, h3, by omega⟩

/-- On an obstacle-free grid a settling pop's cost is exactly the popped
position's Manhattan distance from `start`. -/
lemma settle_cost_manh {mx my : Int} {blocked : Int → Int → Bool} {start : Pos}
    {st : DijState} {S : Pos → Prop} {lp c : Nat} {pos : Pos}
    {rest : List (Nat × Pos)}
    (hopen : ∀ x y, blocked x y = false)
    (hs : 0 ≤ start.1 ∧ start.1 < mx ∧ 0 ≤ start.2 ∧ start.2 < my)
    (hinv : DijInv mx my blocked start st S lp)
    (hM : ManhInv mx my start st S)
    (hpop : popMin st.pq = some ((c, pos), rest))
    (hpos : ¬ S pos) : c = manh start pos := by
  obtain ⟨_, hdpos⟩ := settle_relaxInv hinv hpop hpos
  obtain ⟨hmem, hle, _⟩ := popMin_spec hpop
  have hlow : manh start pos ≤ c := hM.lower pos c hdpos
  rcases hinv.startTracked with hSstart | ⟨hin0, _⟩
  · rcases hinv.distOpen pos c hdpos with heq | ho
    · exact absurd (by rw [heq]; exact hSstart) hpos
    · obtain ⟨u, du, hnSu, hdu, hdum, hum⟩ :=
        manh_reach hopen hinv hM hs hSstart (manh start pos) pos rfl hpos ho.1
      have hin := hinv.unsettledEntry u du hnSu hdu
      have hcle : c ≤ du := hle (du, u) hin
      omega
  · have h0 : c ≤ 0 := hle (0, start) hin0
    omega

lemma manhInv_pq {mx my : Int} {start : Pos} {st : DijState} {S : Pos → Prop}
    (pq2 : List (Nat × Pos)) (hM : ManhInv mx my start st S) :
    ManhInv mx my start { st with pq := pq2 } S :=
  ⟨hM.lower, hM.upper, hM.exact⟩

lemma manhInv_init (mx my : Int) (start : Pos) :
    ManhInv mx my start (dijInit start) (fun _ => False) := by
  refine ⟨?_, ?_, ?_⟩
  · intro p d hd
    have h2 : (if p = start then some 0 else (none : Option Nat)) = some d := hd
    by_cases hp : p = start
    · rw [if_pos hp] at h2
      have h3 : (0 : Nat) = d := Option.some.inj h2
      have h4 : manh start p = 0 := by
        rw [hp]
        unfold manh
        omega
      omega
    · rw [if_neg hp] at h2
      exact absurd h2 (by simp)
  · intro p d hd
    have h2 : (if p = start then some 0 else (none : Option Nat)) = some d := hd
    by_cases hp : p = start
    · rw [if_pos hp] at h2
      have h3 : (0 : Nat) = d := Option.some.inj h2
      omega
    · rw [if_neg hp] at h2
      exact absurd h2 (by simp)
  · intro p hp
    exact hp.elim

lemma manhInv_settle {mx my : Int} {blocked : Int → Int → Bool} {start : Pos}
    {st : DijState} {S : Pos → Prop} {lp c : Nat} {pos : Pos}
    {rest : List (Nat × Pos)}
    (hs : 0 ≤ start.1 ∧ start.1 < mx ∧ 0 ≤ start.2 ∧ start.2 < my)
    (hinv : DijInv mx my blocked start st S lp)
    (hM : ManhInv mx my start st S)
    (hpop : popMin st.pq = some ((c, pos), rest))
    (hpos : ¬ S pos) (hc : c = manh start pos) :
    ManhInv mx my start
      (dijNeighbors.foldl (dijRelax mx my blocked c pos) { st with pq := rest })
      (fun p => S p ∨ p = pos) := by
  obtain ⟨hinv2, hdpos, hdposF, hmono, hchar⟩ := dijStep_settle hinv hpop hpos
  have hbpos : 0 ≤ pos.1 ∧ pos.1 < mx ∧ 0 ≤ pos.2 ∧ pos.2 < my := by
    rcases hinv.distOpen pos c hdpos with heq | ho
    · rw [heq]; exact hs
    · exact ho.1
  have hlower : ∀ p d2,
      (dijNeighbors.foldl (dijRelax mx my blocked c pos)
        { st with pq := rest }).dist p = some d2 → manh start p ≤ d2 := by
    intro p d2 hd2
    rcases hchar p d2 hd2 with hold | ⟨_, ⟨off, hoff, hpoff⟩, rfl⟩
    · exact hM.lower p d2 hold
    · have h1 := @manh_off_le start pos off hoff
      rw [hpoff]
      omega
  refine ⟨hlower, ?_, ?_⟩
  · intro p d2 hd2
    rcases hchar p d2 hd2 with hold | ⟨_, ⟨off, hoff, hpoff⟩, rfl⟩
    · exact hM.upper p d2 hold
    · have hm : manh start pos + 2 ≤ (mx + my).toNat := by
        unfold manh
        omega
      omega
  · intro p hp
    rcases hp with hSp | rfl
    · have hex := hM.exact p hSp
      obtain ⟨d2, hd2, hle2⟩ := hmono p (manh start p) hex
      have hge := hlower p d2 hd2
      have hde : d2 = manh start p := by omega
      rw [hde] at hd2
      exact hd2
    · rw [hdposF, hc]

/-! ### The termination potential -/

lemma mem_cellList {mx my : Int} {p : Pos}
    (hb : 0 ≤ p.1 ∧ p.1 < mx ∧ 0 ≤ p.2 ∧ p.2 < my) : p ∈ cellList mx my := by
  unfold cellList
  have he : ((((p.1.toNat : Nat)) : Int), (((p.2.toNat : Nat)) : Int)) = p := by
    refine Prod.ext ?_ ?_
    · show ((p.1.toNat : Nat) : Int) = p.1
      omega
    · show ((p.2.toNat : Nat) : Int) = p.2
      omega
  refine List.mem_bind.mpr ⟨p.1.toNat, List.mem_range.mpr (by omega), ?_⟩
  refine List.mem_map.mpr ⟨p.2.toNat, List.mem_range.mpr (by omega), he⟩

lemma sum_lt_of_mem {w w2 : Pos → Nat} :
    ∀ {l : List Pos} {q : Pos}, q ∈ l → (∀ p ∈ l, w2 p ≤ w p) →
      w2 q + 1 ≤ w q → (l.map w2).sum + 1 ≤ (l.map w).sum := by
  intro l
  induction l with
  | nil => intro q hq; simp at hq
  | cons a t ih =>
    intro q hq hpt hqlt
    rcases List.mem_cons.mp hq with rfl | hq2
    · have hrest : (t.map w2).sum ≤ (t.map w).sum :=
        List.sum_le_sum (fun p hp => hpt p (List.mem_cons_of_mem _ hp))
      simp only [List.map_cons, List.sum_cons]
      omega
    · have hh : w2 a ≤ w a := hpt a (List.mem_cons_self _ _)
      have := ih hq2 (fun p hp => hpt p (List.mem_cons_of_mem _ hp)) hqlt
      simp only [List.map_cons, List.sum_cons]
      omega

lemma dijPot_relax_le {mx my : Int} {blocked : Int → Int → Bool} {c : Nat}
    {pos : Pos} {st : DijState} {off : Int × Int}
    (hcap : c + 1 ≤ (mx + my).toNat) :
    dijPot mx my (dijRelax mx my blocked c pos st off) ≤ dijPot mx my st := by
  rcases dijRelax_cases mx my blocked c pos st off with ⟨_, heq⟩ | ⟨hopen, hrest⟩
  · rw [heq]
  · rcases hrest with ⟨_, _, _, heq⟩ | ⟨hup, heq⟩
    · rw [heq]
    · have hdistE : ∀ p, (dijRelax mx my blocked c pos st off).dist p =
          if p = (pos.1 + off.1, pos.2 + off.2) then some (c + 1) else st.dist p := by
        intro p
        rw [heq]
      have hpqE : (dijRelax mx my blocked c pos st off).pq =
          st.pq ++ [(c + 1, (pos.1 + off.1, pos.2 + off.2))] := by
        rw [heq]
      have hwq : dijWeight mx my (dijRelax mx my blocked c pos st off)
          (pos.1 + off.1, pos.2 + off.2) = c + 1 := by
        unfold dijWeight
        rw [hdistE, if_pos rfl]
      have hwp : ∀ p, dijWeight mx my (dijRelax mx my blocked c pos st off) p ≤
          dijWeight mx my st p := by
        intro p
        by_cases hp : p = (pos.1 + off.1, pos.2 + off.2)
        · rw [hp, hwq]
          rcases hup with hnone | ⟨dc, hdc, hlt⟩
          · unfold dijWeight
            rw [hnone]
            show c + 1 ≤ (mx + my).toNat + 1
            omega
          · unfold dijWeight
            rw [hdc]
            show c + 1 ≤ dc
            omega
        · unfold dijWeight
          rw [hdistE, if_neg hp]
      have hwqold : c + 2 ≤ dijWeight mx my st (pos.1 + off.1, pos.2 + off.2) := by
        rcases hup with hnone | ⟨dc, hdc, hlt⟩
        · unfold dijWeight
          rw [hnone]
          show c + 2 ≤ (mx + my).toNat + 1
          omega
        · unfold dijWeight
          rw [hdc]
          show c + 2 ≤ dc
          omega
      have hmem : (pos.1 + off.1, pos.2 + off.2) ∈ cellList mx my :=
        mem_cellList hopen.1
      have hsum := sum_lt_of_mem hmem (fun p _ => hwp p) (by omega)
      unfold dijPot
      rw [hpqE, List.length_append]
      simp only [List.length_cons, List.length_nil]
      omega

lemma dijPot_fold_le {mx my : Int} {blocked : Int → Int → Bool} {c : Nat}
    {pos : Pos} (hcap : c + 1 ≤ (mx + my).toNat) :
    ∀ (offs : List (Int × Int)) (st : DijState),
      dijPot mx my (offs.foldl (dijRelax mx my blocked c pos) st) ≤
        dijPot mx my st := by
  intro offs
  induction offs with
  | nil => intro st; exact le_refl _
  | cons o os ih =>
    intro st
    rw [List.foldl_cons]
    exact le_trans (ih _) (dijPot_relax_le hcap)

lemma dijPot_pop {mx my : Int} {st : DijState} {m : Nat × Pos}
    {rest : List (Nat × Pos)} (hpop : popMin st.pq = some (m, rest)) :
    dijPot mx my { st with pq := rest } + 1 = dijPot mx my st := by
  obtain ⟨hmem, _, hrest⟩ := popMin_spec hpop
  unfold dijPot
  have hlen : rest.length + 1 = st.pq.length := by
    rw [hrest]
    exact pyRemove_length hmem
  have hsum : ((cellList mx my).map (dijWeight mx my { st with pq := rest })).sum =
      ((cellList mx my).map (dijWeight mx my st)).sum := rfl
  have hlen2 : ({ st with pq := rest } : DijState).pq.length = rest.length := rfl
  omega

lemma cellList_length (mx my : Int) :
    (cellList mx my).length = mx.toNat * my.toNat := by
  unfold cellList
  rw [List.length_bind]
  simp only [Function.comp_def, List.length_map, List.length_range]
  rw [List.map_const', List.sum_replicate, smul_eq_mul, List.length_range]

lemma dijPot_init_lt (mx my : Int) (start : Pos) :
    dijPot mx my (dijInit start) < dijFuelBound mx my := by
  unfold dijPot dijFuelBound
  have h1 : (dijInit start).pq.length = 1 := rfl
  have h2 : ∀ x ∈ (cellList mx my).map (dijWeight mx my (dijInit start)),
      x ≤ (mx + my).toNat + 1 := by
    intro x hx
    obtain ⟨p, _, rfl⟩ := List.mem_map.mp hx
    unfold dijWeight
    rcases h : (dijInit start).dist p with _ | d
    · exact le_refl _
    · show d ≤ (mx + my).toNat + 1
      have h3 : (if p = start then some 0 else (none : Option Nat)) = some d := h
      by_cases hp : p = start
      · rw [if_pos hp] at h3
        have : (0 : Nat) = d := Option.some.inj h3
        omega
      · rw [if_neg hp] at h3
        exact absurd h3 (by simp)
  have h3 := List.sum_le_card_nsmul _ _ h2
  rw [List.length_map, cellList_length, smul_eq_mul] at h3
  rw [h1]
  omega

/-! ### C4: Manhattan-distance exactness on the obstacle-free grid -/

lemma mem_of_getLast {α : Type} {a : α} :
    ∀ {l : List α}, l.getLast? = some a → a ∈ l := by
  intro l
  induction l with
  | nil => intro h; simp at h
  | cons x t ih =>
    intro h
    cases t with
    | nil =>
      have h2 : x = a := by simpa using h
      rw [← h2]
      exact List.mem_cons_self _ _
    | cons y t2 =>
      rw [List.getLast?_cons_cons] at h
      exact List.mem_cons_of_mem x (ih h)

lemma recon_total {start : Pos} {st : DijState} (hc : ChainInv start st) :
    ∀ (d : Nat) (p : Pos), st.dist p = some d → ∀ (f : Nat), d < f →
      ∃ path, dijReconstruct st.prev start f p = .ok path := by
  intro d
  induction d using Nat.strong_induction_on with
  | _ d ih =>
    intro p hd f hf
    rcases f with _ | f2
    · exact absurd hf (by omega)
    · by_cases hp : p = start
      · refine ⟨[start], ?_⟩
        unfold dijReconstruct
        rw [if_pos hp]
      · obtain ⟨q, hq⟩ := hc.distPrev p d hd hp
        obtain ⟨⟨dq, hdq, hdp⟩, _⟩ := hc.prevStep p q hq
        have hdeq : d = dq + 1 := by
          rw [hd] at hdp
          exact Option.some.inj hdp
        obtain ⟨path2, hrec⟩ := ih dq (by omega) q hdq f2 (by omega)
        refine ⟨path2 ++ [p], ?_⟩
        show dijReconstruct st.prev start (f2 + 1) p = .ok (path2 ++ [p])
        unfold dijReconstruct
        rw [if_neg hp, hq]
        show (dijReconstruct st.prev start f2 q >>= fun pa => pure (pa ++ [p])) =
          .ok (path2 ++ [p])
        rw [hrec, ok_bind]
        rfl

/-- The main-loop analysis on an obstacle-free grid: with enough fuel
(the potential bound) the loop reaches the target at cost exactly its
Manhattan distance from start. -/
lemma dijLoopGo_manh {mx my : Int} {blocked : Int → Int → Bool}
    {start target : Pos}
    (hopen : ∀ x y, blocked x y = false)
    (hs : 0 ≤ start.1 ∧ start.1 < mx ∧ 0 ≤ start.2 ∧ start.2 < my)
    (ht : 0 ≤ target.1 ∧ target.1 < mx ∧ 0 ≤ target.2 ∧ target.2 < my) :
    ∀ (fuel : Nat) (st : DijState) (S : Pos → Prop) (lp : Nat)
      (lastPos : Option Pos),
    DijInv mx my blocked start st S lp → ManhInv mx my start st S →
    ¬ S target → dijPot mx my st < fuel →
    ∃ stf, dijLoopGo mx my blocked target fuel st lastPos =
      .reached (manh start target) stf ∧ ChainInv start stf ∧
      stf.dist target = some (manh start target) := by
  intro fuel
  induction fuel with
  | zero =>
    intro st S lp lastPos _ _ _ hpot
    exact absurd hpot (by omega)
  | succ fuel ih =>
    intro st S lp lastPos hinv hM htgt hpot
    rcases hpop : popMin st.pq with _ | ⟨⟨c, pos⟩, rest⟩
    · exfalso
      have hpq : st.pq = [] := popMin_none hpop
      rcases hinv.startTracked with hSstart | ⟨hin0, _⟩
      · rcases hdt : st.dist target with _ | d
        · obtain ⟨u, du, hnSu, hdu, _, _⟩ :=
            manh_reach hopen hinv hM hs hSstart (manh start target) target rfl
              htgt ht
          have hin := hinv.unsettledEntry u du hnSu hdu
          rw [hpq] at hin
          simp at hin
        · have hin := hinv.unsettledEntry target d htgt hdt
          rw [hpq] at hin
          simp at hin
      · rw [hpq] at hin0
        simp at hin0
    · have hstep : dijLoopGo mx my blocked target (fuel + 1) st lastPos =
          if pos = target then .reached c { st with pq := rest }
          else dijLoopGo mx my blocked target fuel
            (dijNeighbors.foldl (dijRelax mx my blocked c pos)
              { st with pq := rest }) (some pos) := by
        rw [dijLoopGo_succ, hpop]
      have hpot1 : dijPot mx my { st with pq := rest } + 1 = dijPot mx my st :=
        dijPot_pop hpop
      by_cases htp : pos = target
      · subst htp
        have hc := settle_cost_manh hopen hs hinv hM hpop htgt
        refine ⟨{ st with pq := rest }, ?_,
          chainInv_pq rest (dijInv_chain hinv), ?_⟩
        · rw [hstep, if_pos rfl, hc]
        · obtain ⟨_, hdpos⟩ := settle_relaxInv hinv hpop htgt
          show st.dist pos = some (manh start pos)
          rw [hdpos, hc]
      · by_cases hS : S pos
        · obtain ⟨hid, hinv2⟩ := dijStep_stale hinv hpop hS
          have hM2 : ManhInv mx my start { st with pq := rest } S :=
            manhInv_pq rest hM
          have hpot2 : dijPot mx my { st with pq := rest } < fuel := by omega
          obtain ⟨stf, heq, hch, hdt⟩ := ih _ S c (some pos) hinv2 hM2 htgt hpot2
          refine ⟨stf, ?_, hch, hdt⟩
          rw [hstep, if_neg htp, hid]
          exact heq
        · have hc := settle_cost_manh hopen hs hinv hM hpop hS
          obtain ⟨hinv2, hdpos, _, _, _⟩ := dijStep_settle hinv hpop hS
          have hM2 := manhInv_settle hs hinv hM hpop hS hc
          have htgt2 : ¬ (S target ∨ target = pos) := by
            rintro (h | h)
            · exact htgt h
            · exact htp h.symm
          have hbpos : 0 ≤ pos.1 ∧ pos.1 < mx ∧ 0 ≤ pos.2 ∧ pos.2 < my := by
            rcases hinv.distOpen pos c hdpos with heqs | ho
            · rw [heqs]; exact hs
            · exact ho.1
          have hcap : c + 1 ≤ (mx + my).toNat := by
            have hm2 : manh start pos + 2 ≤ (mx + my).toNat := by
              unfold manh
              omega
            omega
          have hpot2 : dijPot mx my
              (dijNeighbors.foldl (dijRelax mx my blocked c pos)
                { st with pq := rest }) < fuel := by
            have h6 := @dijPot_fold_le mx my blocked c pos hcap dijNeighbors
              { st with pq := rest }
            omega
          obtain ⟨stf, heq, hch, hdt⟩ := ih _ _ c (some pos) hinv2 hM2 htgt2 hpot2
          refine ⟨stf, ?_, hch, hdt⟩
          rw [hstep, if_neg htp]
          exact heq

/-- **C4.** On a grid with no item (blocked) cells and in-bounds start
and target, run with enough fuel for its potential bound, `dijkstra`
returns a found path whose cost is exactly the Manhattan distance
`|start.x - target.x| + |start.y - target.y|`. -/
theorem dijkstra_open_grid_manhattan {mx my : Int} {blocked : Int → Int → Bool}
    {start target : Pos} {fuel : Nat}
    (hopen : ∀ x y, blocked x y = false)
    (hs : 0 ≤ start.1 ∧ start.1 < mx ∧ 0 ≤ start.2 ∧ start.2 < my)
    (ht : 0 ≤ target.1 ∧ target.1 < mx ∧ 0 ≤ target.2 ∧ target.2 < my)
    (hfuel : dijFuelBound mx my ≤ fuel) :
    ∃ path, dijkstra mx my blocked start target fuel =
      .found path (manh start target) := by
  rw [dijkstra_eq mx my blocked start target fuel ht]
  have hpot : dijPot mx my (dijInit start) < fuel :=
    lt_of_lt_of_le (dijPot_init_lt mx my start) hfuel
  obtain ⟨stf, heq, hch, hdt⟩ := dijLoopGo_manh hopen hs ht fuel (dijInit start)
    (fun _ => False) 0 none (dijInv_init mx my blocked start)
    (manhInv_init mx my start) (fun h => h) hpot
  rw [heq]
  have hmfuel : manh start target < fuel := by
    unfold dijFuelBound at hfuel
    have h1 : 1 ≤ mx.toNat := by omega
    have h2 : 1 ≤ my.toNat := by omega
    have h4 : 1 * 1 ≤ mx.toNat * my.toNat := Nat.mul_le_mul h1 h2
    have h5 : 1 * ((mx + my).toNat + 1) ≤
        mx.toNat * my.toNat * ((mx + my).toNat + 1) :=
      Nat.mul_le_mul_right _ (by omega)
    have hmb : manh start target ≤ (mx + my).toNat := by
      unfold manh
      omega
    omega
  obtain ⟨path2, hrec⟩ := recon_total hch (manh start target) target hdt fuel
    hmfuel
  obtain ⟨d, hd, _, _, _, hlast, _⟩ := recon_spec hch fuel target path2 hrec
  have hmem : target ∈ path2 := mem_of_getLast hlast
  refine ⟨path2, ?_⟩
  show (match dijReconstruct stf.prev start fuel target with
      | .ok p2 =>
        if target ∈ p2 then DijkstraResult.found p2 (manh start target)
        else .notFound
      | .error e => .err e) = .found path2 (manh start target)
  rw [hrec]
  show (if target ∈ path2 then DijkstraResult.found path2 (manh start target)
      else .notFound) = .found path2 (manh start target)
  rw [if_pos hmem]

theorem dijkstra_open_grid_manhattan_witness :
    (∀ x y : Int, (fun _ _ => false : Int → Int → Bool) x y = false) ∧
    (0 ≤ (0 : Int) ∧ (0 : Int) < 3 ∧ 0 ≤ (0 : Int) ∧ (0 : Int) < 3) ∧
    dijFuelBound 3 3 ≤ 65 ∧
    ∃ path, dijkstra 3 3 (fun _ _ => false) (0, 0) (2, 1) 65 =
      .found path (manh (0, 0) (2, 1)) :=
  ⟨fun _ _ => rfl, by decide, by decide,
    @dijkstra_open_grid_manhattan 3 3 (fun _ _ => false) (0, 0) (2, 1) 65
      (fun _ _ => rfl) (by decide) (by decide) (by decide)⟩

end ItemRouting
